import Mathlib

/-!
Verification of the web crawler in `src/python/web_crawler.py`.

The crawler's orchestration loop (`WebCrawler.crawl`), its frontier handling,
its state loading (`WebCrawler._load_state`) and its robots.txt cache
(`RobotsTxtParser`) are embedded shallowly below.  External collaborators
(the `requests` HTTP stack, `urllib3` retries, BeautifulSoup extraction,
`urllib.parse` URL normalization and the Python stdlib `urllib.robotparser`)
are modelled as components of an explicit environment record, or — where a
claim hinges on their concrete semantics — as small faithful models with a
doc comment naming the modelled library code.
-/

namespace WebCrawler

/-- Ghost trace event recorded by the embedded crawl loop: one entry per
`_fetch_url` call, per `_save_document` call and per frontier push performed
while mining links.  The events do not influence control flow; they only
record what the Python code does at the corresponding program points. -/
inductive Event where
  | fetch (url : String) (depth : Nat) (ok : Bool)
  | save (docId : Nat) (url : String) (ok : Bool)
  | push (url : String) (depth parentDepth : Nat)
deriving DecidableEq

/-- URLs of the `_fetch_url` calls recorded in a trace, most recent first. -/
def fetchUrls (tr : List Event) : List String :=
  tr.filterMap (fun e =>
    match e with
    | Event.fetch u _ _ => some u
    | _ => none)

/-- The (url, depth) pairs of the `_fetch_url` calls recorded in a trace. -/
def fetchEvents (tr : List Event) : List (String × Nat) :=
  tr.filterMap (fun e =>
    match e with
    | Event.fetch u d _ => some (u, d)
    | _ => none)

/-- Document IDs of the successful `_save_document` calls in a trace. -/
def savedIds (tr : List Event) : List Nat :=
  tr.filterMap (fun e =>
    match e with
    | Event.save i _ true => some i
    | _ => none)

/-- All `_save_document` calls in a trace: (docId, url, success). -/
def saveEvents (tr : List Event) : List (Nat × String × Bool) :=
  tr.filterMap (fun e =>
    match e with
    | Event.save i u ok => some (i, u, ok)
    | _ => none)

/-- All frontier pushes performed while mining links: (url, depth, parentDepth). -/
def pushEvents (tr : List Event) : List (String × Nat × Nat) :=
  tr.filterMap (fun e =>
    match e with
    | Event.push u d p => some (u, d, p)
    | _ => none)

/-- Configuration surface of `WebCrawler.crawl`: `max_pages` and `max_depth`
are the method's parameters, `max_pages_per_domain` and `min_content_length`
the attributes set in `__init__` (100 and 500 by default). -/
structure CrawlConfig where
  maxPages : Nat
  maxDepth : Nat
  maxPagesPerDomain : Nat
  minContentLength : Nat
deriving DecidableEq

/-- Environment: the crawler's external collaborators.  `normalizeUrl` stands
for `_normalize_url` (built on `urllib.parse`), `domainOf` for `_get_domain`,
`robotsCanFetch` for `RobotsTxtParser.can_fetch` (whose per-domain answer is
fixed for a run by its cache), `fetchHtml` for `_fetch_url` (`none` models the
caught exception path returning `None`), `extractContent` for
`_extract_content` returning `(title, text, date)`, `extractLinks` for
`_extract_links`, and `saveOk` for the success of `_save_document` for a given
document ID and URL (`false` models the caught I/O failure returning `False`). -/
structure CrawlEnv where
  normalizeUrl : String → String
  domainOf : String → String
  robotsCanFetch : String → Bool
  fetchHtml : String → Option String
  extractContent : String → Option String × Option String × Option String
  extractLinks : String → String → List String
  saveOk : Nat → String → Bool

/-- In-memory state of `WebCrawler.crawl`: the frontier deque (head = next to
pop, pushes append at the tail), the visited and failed sets, the counters of
the `stats` dict, `last_doc_id`, `domain_page_counts`, the local
`pages_crawled` counter, and the ghost event trace. -/
structure CrawlState where
  queue : List (String × Nat)
  visited : List String
  failed : List String
  urlsVisited : Nat
  urlsFailed : Nat
  urlsSkipped : Nat
  documentsSaved : Nat
  lastDocId : Nat
  domainPageCounts : List (String × Nat)
  pagesCrawled : Nat
  trace : List Event

/-- Lookup in the `domain_page_counts` dict: `dict.get(domain, 0)`. -/
def getCount : List (String × Nat) → String → Nat
  | [], _ => 0
  | (k, v) :: rest, d => if k = d then v else getCount rest d

/-- Update of the `domain_page_counts` dict:
`dict[domain] = dict.get(domain, 0) + 1`. -/
def bumpCount : List (String × Nat) → String → List (String × Nat)
  | [], d => [(d, 1)]
  | (k, v) :: rest, d =>
    if k = d then (k, v + 1) :: rest else (k, v) :: bumpCount rest d

/-- Seed loop of `crawl` (source lines 335–338): each seed is normalized and
appended to the queue when non-empty and not in the visited set.  Note the
source checks the seed only against `visited_urls`, not against the queue. -/
def seedQueue (env : CrawlEnv) (visited0 : List String) : List String → List (String × Nat)
  | [] => []
  | url :: rest =>
    let normalized := env.normalizeUrl url
    if normalized ≠ "" ∧ normalized ∉ visited0 then
      (normalized, 0) :: seedQueue env visited0 rest
    else
      seedQueue env visited0 rest

/-- Link push loop of `crawl` (source lines 391–395): each extracted link is
normalized again and appended at depth `depth + 1` when non-empty, not
visited, and not already a queued URL. -/
def pushLinks (env : CrawlEnv) (depth : Nat) : List String → CrawlState → CrawlState
  | [], s => s
  | link :: links, s =>
    let normalizedLink := env.normalizeUrl link
    if normalizedLink ≠ "" ∧ normalizedLink ∉ s.visited ∧
        normalizedLink ∉ s.queue.map Prod.fst then
      pushLinks env depth links
        { s with
          queue := s.queue ++ [(normalizedLink, depth + 1)],
          trace := Event.push normalizedLink (depth + 1) depth :: s.trace }
    else
      pushLinks env depth links s

/-- Save phase of `crawl` (source lines 378–387): when the extracted text is
truthy and at least `min_content_length` long, `_save_document` is attempted
with ID `last_doc_id + 1`; only on success are the watermark, the
`documents_saved` counter and `pages_crawled` advanced.  The periodic
`_save_state` checkpoint writes no in-memory state and is not modelled. -/
def savePhase (env : CrawlEnv) (cfg : CrawlConfig) (url : String)
    (textContent : Option String) (s : CrawlState) : CrawlState :=
  match textContent with
  | some text =>
    if text ≠ "" ∧ cfg.minContentLength ≤ text.length then
      let docId := s.lastDocId + 1
      if env.saveOk docId url then
        { s with
          lastDocId := docId,
          documentsSaved := s.documentsSaved + 1,
          pagesCrawled := s.pagesCrawled + 1,
          trace := Event.save docId url true :: s.trace }
      else
        { s with trace := Event.save docId url false :: s.trace }
    else s
  | none => s

/-- Processing of a successfully fetched page (source lines 376–395): content
extraction, the save phase, then link mining when `depth < max_depth`. -/
def processPage (env : CrawlEnv) (cfg : CrawlConfig) (url : String) (depth : Nat)
    (html : String) (s : CrawlState) : CrawlState :=
  let extracted := env.extractContent html
  let s1 := savePhase env cfg url extracted.2.1 s
  if depth < cfg.maxDepth then
    pushLinks env depth (env.extractLinks html url) s1
  else s1

/-- One iteration of the `while` loop of `crawl` (source lines 346–395):
pop, visited check, pop-time depth check, domain cap check, robots check,
marking visited, fetch, and page processing.  The politeness sleep changes no
modelled state and is omitted. -/
def crawlStep (env : CrawlEnv) (cfg : CrawlConfig) (s : CrawlState) : CrawlState :=
  match s.queue with
  | [] => s
  | (url, depth) :: rest =>
    let s0 := { s with queue := rest }
    if url ∈ s0.visited then s0
    else if cfg.maxDepth < depth then s0
    else
      let domain := env.domainOf url
      if cfg.maxPagesPerDomain ≤ getCount s0.domainPageCounts domain then s0
      else if !env.robotsCanFetch url then
        { s0 with urlsSkipped := s0.urlsSkipped + 1 }
      else
        let s1 := { s0 with
          visited := url :: s0.visited,
          urlsVisited := s0.urlsVisited + 1,
          domainPageCounts := bumpCount s0.domainPageCounts domain }
        match env.fetchHtml url with
        | none =>
          { s1 with
            failed := url :: s1.failed,
            urlsFailed := s1.urlsFailed + 1,
            trace := Event.fetch url depth false :: s1.trace }
        | some html =>
          processPage env cfg url depth html
            { s1 with trace := Event.fetch url depth true :: s1.trace }

/-- The `while self.url_queue and pages_crawled < max_pages` loop, with fuel.
`none` means the fuel ran out before the loop's own exit condition held. -/
def crawlLoop (env : CrawlEnv) (cfg : CrawlConfig) : Nat → CrawlState → Option CrawlState
  | 0, _ => none
  | fuel + 1, s =>
    if s.queue = [] ∨ ¬ s.pagesCrawled < cfg.maxPages then some s
    else crawlLoop env cfg fuel (crawlStep env cfg s)

/-- State at loop entry: the seeded queue plus the crawler's state at the time
`crawl` is called (`visited0` is `self.visited_urls`, `lastDocId0` is
`self.last_doc_id`; the `stats` counters and `domain_page_counts` start at
zero/empty as set in `__init__`). -/
def initState (env : CrawlEnv) (visited0 : List String) (lastDocId0 : Nat)
    (seeds : List String) : CrawlState :=
  { queue := seedQueue env visited0 seeds
    visited := visited0
    failed := []
    urlsVisited := 0
    urlsFailed := 0
    urlsSkipped := 0
    documentsSaved := 0
    lastDocId := lastDocId0
    domainPageCounts := []
    pagesCrawled := 0
    trace := [] }

/-- Whole run of `crawl`: seed the queue, then run the loop. -/
def crawlRun (env : CrawlEnv) (cfg : CrawlConfig) (visited0 : List String)
    (lastDocId0 : Nat) (seeds : List String) (fuel : Nat) : Option CrawlState :=
  crawlLoop env cfg fuel (initState env visited0 lastDocId0 seeds)

/-- The statistics dictionary returned by `crawl` (counts only; the timestamp
fields record wall-clock time and are not modelled). -/
structure CrawlStats where
  urlsVisited : Nat
  urlsFailed : Nat
  urlsSkipped : Nat
  documentsSaved : Nat
  pagesCrawled : Nat
deriving DecidableEq

/-- Projection of the final state onto the returned `stats` dict. -/
def statsOf (s : CrawlState) : CrawlStats :=
  { urlsVisited := s.urlsVisited
    urlsFailed := s.urlsFailed
    urlsSkipped := s.urlsSkipped
    documentsSaved := s.documentsSaved
    pagesCrawled := s.pagesCrawled }

/-- The `crawl` method as seen by its caller: the statistics of the final state. -/
def crawl (env : CrawlEnv) (cfg : CrawlConfig) (visited0 : List String)
    (lastDocId0 : Nat) (seeds : List String) (fuel : Nat) : Option CrawlStats :=
  (crawlRun env cfg visited0 lastDocId0 seeds fuel).map statsOf

/-- States reachable from `s` by iterations of the crawl loop, each taken only
while the loop guard (`url_queue` non-empty and `pages_crawled < max_pages`)
holds.  Every state the loop passes through is reachable from the loop-entry
state in this sense. -/
inductive Reachable (env : CrawlEnv) (cfg : CrawlConfig) : CrawlState → CrawlState → Prop where
  | refl (s : CrawlState) : Reachable env cfg s s
  | head {s t : CrawlState} (hq : s.queue ≠ []) (hp : s.pagesCrawled < cfg.maxPages) :
      Reachable env cfg (crawlStep env cfg s) t → Reachable env cfg s t

/-! ## Robots.txt policy (`RobotsTxtParser`, source lines 15–53)

The repository delegates rule storage and evaluation to the Python stdlib
class `urllib.robotparser.RobotFileParser`; the relevant slice of that class
is modelled here from CPython's `Lib/urllib/robotparser.py`. -/

/-- Test that `p` begins `s`, computed on the underlying character lists
(structural, so that closed instances evaluate by `rfl`). -/
def strPrefixOf (p s : String) : Bool :=
  p.data.isPrefixOf s.data

/-- Model of CPython `urllib.robotparser.RobotFileParser`: the flags
`disallow_all` and `allow_all`, the "has the file ever been read" timestamp
`last_checked` (here a Bool: `parse` sets it via `modified()`), and the rule
lines of the entry applying to our user agent, as (path, allowance) pairs in
file order. -/
structure RobotFileParser where
  disallowAll : Bool := false
  allowAll : Bool := false
  lastChecked : Bool := false
  ruleLines : List (String × Bool) := []
deriving DecidableEq

/-- Model of CPython `Entry.allowance`: the first rule line whose path applies
to the URL decides; with no applicable line the default is allow. -/
def ruleAllowance : List (String × Bool) → String → Bool
  | [], _ => true
  | (path, allow) :: rest, url =>
    if strPrefixOf path url then allow else ruleAllowance rest url

/-- Model of CPython `RobotFileParser.can_fetch`: `disallow_all` wins, then
`allow_all`; an instance whose robots.txt has never been read or found not to
exist (`last_checked` unset) refuses every URL; otherwise the parsed rules
decide. -/
def RobotFileParser.canFetchUA (rp : RobotFileParser) (url : String) : Bool :=
  if rp.disallowAll then false
  else if rp.allowAll then true
  else if !rp.lastChecked then false
  else ruleAllowance rp.ruleLines url

/-- Outcome of `RobotFileParser.read()` for a domain's robots.txt:
`success` (the file was retrieved and parsed), `httpError code` (urlopen
raised an `HTTPError`, handled inside `read`), or `failure` (`read` itself
raised, e.g. a `URLError` on connection/DNS failure or a decode error). -/
inductive RobotsReadOutcome where
  | success (rules : List (String × Bool))
  | httpError (code : Nat)
  | failure

/-- Model of CPython `RobotFileParser.read()` applied to a fresh parser:
on success `parse` stores the rules and sets `last_checked`; an `HTTPError`
401/403 sets `disallow_all`, another 4xx sets `allow_all`, and a 5xx code
leaves the parser untouched; `none` means `read` raised. -/
def readResult : RobotsReadOutcome → Option RobotFileParser
  | RobotsReadOutcome.success rules =>
    some { lastChecked := true, ruleLines := rules }
  | RobotsReadOutcome.httpError code =>
    some (if code = 401 ∨ code = 403 then { disallowAll := true }
          else if 400 ≤ code ∧ code < 500 then { allowAll := true }
          else {})
  | RobotsReadOutcome.failure => none

/-- The `robots_cache` dict of `RobotsTxtParser` (crawl delays are timing and
are not modelled). -/
structure RobotsCache where
  robotsCache : List (String × RobotFileParser)

/-- Lookup in the robots cache. -/
def cacheLookup : List (String × RobotFileParser) → String → Option RobotFileParser
  | [], _ => none
  | (k, v) :: rest, d => if k = d then some v else cacheLookup rest d

/-- `RobotsTxtParser.get_robots_parser` (source lines 21–41) for a domain,
with the per-domain read outcome supplied by the environment: on a cache miss
the parser produced by `rp.read()` is cached, and when `read` raises, the
`except` branch caches a fresh `RobotFileParser` for the domain. -/
def getRobotsParser (read : String → RobotsReadOutcome) (cache : RobotsCache)
    (domain : String) : RobotFileParser × RobotsCache :=
  match cacheLookup cache.robotsCache domain with
  | some rp => (rp, cache)
  | none =>
    let rp := match readResult (read domain) with
      | some rp => rp
      | none => {}
    (rp, { robotsCache := (domain, rp) :: cache.robotsCache })

/-- `RobotsTxtParser.can_fetch` (source lines 43–48): query the cached (or
freshly created) parser for the URL's domain.  The repository wraps the query
in `try/except` returning `True`, but the modelled `can_fetch` of the stdlib
parser is total and never raises, so that branch is dead. -/
def robotsTxtCanFetch (read : String → RobotsReadOutcome) (domainOf : String → String)
    (cache : RobotsCache) (url : String) : Bool × RobotsCache :=
  let result := getRobotsParser read cache (domainOf url)
  (result.1.canFetchUA url, result.2)

/-! ## Fetcher retry policy (`_create_session` lines 98–120, `_fetch_url` lines 284–292)

The retry loop itself lives in `urllib3.util.retry.Retry`; it is modelled
here as configured by `_create_session`: `total=3`,
`status_forcelist=[429, 500, 502, 503, 504]`, `backoff_factor=1`. -/

/-- The `status_forcelist` passed to `urllib3.util.retry.Retry` in
`_create_session`. -/
def statusForcelist : List Nat := [429, 500, 502, 503, 504]

/-- The `total` retry budget passed to `Retry` in `_create_session`. -/
def retryTotal : Nat := 3

/-- The `backoff_factor` passed to `Retry` in `_create_session`. -/
def backoffFactor : Nat := 1

/-- Model of `urllib3 Retry.get_backoff_time` before the n-th retry:
`backoff_factor * 2 ** (n - 1)` seconds. -/
def backoffDelay (n : Nat) : Nat := backoffFactor * 2 ^ (n - 1)

/-- Result of one `session.get` under the adapter's retry policy: the status
of the response finally handed back to `requests` (`none` when the retry
budget is exhausted on forcelist statuses and the adapter raises
`RetryError`), the number of HTTP attempts made, and the backoff delays slept
between attempts. -/
structure RetryResult where
  result : Option Nat
  attempts : Nat
  delays : List Nat
deriving DecidableEq

/-- Model of the `urllib3` retry loop for a GET whose successive attempts
return statuses `responses 0, responses 1, …`: a status in the forcelist is
retried while retries remain (sleeping the exponential backoff), any other
status is returned to the caller at once. -/
def retryLoop (responses : Nat → Nat) : Nat → Nat → RetryResult
  | 0, attempt =>
    if responses attempt ∈ statusForcelist then
      { result := none, attempts := attempt + 1, delays := [] }
    else
      { result := some (responses attempt), attempts := attempt + 1, delays := [] }
  | r + 1, attempt =>
    if responses attempt ∈ statusForcelist then
      let tail := retryLoop responses r (attempt + 1)
      { result := tail.result, attempts := tail.attempts,
        delays := backoffDelay (attempt + 1) :: tail.delays }
    else
      { result := some (responses attempt), attempts := attempt + 1, delays := [] }

/-- One `session.get` with the session built by `_create_session`. -/
def sessionGet (responses : Nat → Nat) : RetryResult :=
  retryLoop responses retryTotal 0

/-- Model of `_fetch_url` (source lines 284–292): a malformed URL makes
`requests` raise before any HTTP attempt (caught, `None`); a `RetryError`
after exhausted retries is caught (`None`); `raise_for_status` turns any
4xx/5xx response into a caught `HTTPError` (`None`); otherwise the body text
is returned. -/
def fetchUrlResult (urlWellFormed : Bool) (responses : Nat → Nat)
    (body : String) : Option String :=
  if !urlWellFormed then none
  else
    match (sessionGet responses).result with
    | none => none
    | some st => if 400 ≤ st then none else some body

/-! ## State loading (`_load_state`, source lines 137–165)

String scanning is done on the character lists underlying `String`, keeping
every definition reducible by the kernel. -/

/-- Split of a character list at a separator character, mirroring Python
`str.split(sep)` (so the empty string yields `[""]`). -/
def splitChar (sep : Char) : List Char → List (List Char)
  | [] => [[]]
  | c :: cs =>
    let r := splitChar sep cs
    if c = sep then [] :: r
    else
      match r with
      | h :: t => (c :: h) :: t
      | [] => [[c]]

/-- Digits-only parse mirroring Python `int(s)` on the file-name digit runs it
is applied to: `none` when empty or containing a non-digit (the
`ValueError` branch; signs, spaces and underscore separators that Python
would also accept never pass the glob's file-name shape and are not modelled). -/
def digitsToNat : List Char → Option Nat
  | [] => none
  | cs =>
    if cs.all Char.isDigit then
      some (cs.foldl (fun acc c => acc * 10 + (c.toNat - 48)) 0)
    else none

/-- Membership of a file name in the `doc_*.txt` glob used by `_load_state`. -/
def isDocTxtName (f : String) : Bool :=
  strPrefixOf "doc_" f && strPrefixOf (String.mk ".txt".data.reverse) (String.mk f.data.reverse)
    && decide (8 ≤ f.data.length)

/-- `Path.stem` for a `doc_*.txt` file name: drop the final `.txt`. -/
def fileStem (f : String) : String :=
  String.mk (f.data.take (f.data.length - 4))

/-- The `file.stem.split('_')[1]` parse of `_load_state` (lines 156–161):
`int` of the second underscore-separated token of the stem; `none` covers the
`ValueError`/`IndexError` branch that skips the file. -/
def docIdOfStem (stem : String) : Option Nat :=
  match splitChar '_' stem.data with
  | _ :: numStr :: _ => digitsToNat numStr
  | _ => none

/-- `_load_state` (source lines 137–165) restricted to `last_doc_id`:
`stateVal` is the `last_doc_id` of the state file (`none` when the file is
absent or unreadable, in which case 0 is used), `files` the file names in the
output directory.  When some file matches `doc_*.txt`, the maximum parseable
ID is computed and adopted when it exceeds the state-file value. -/
def loadLastDocId (stateVal : Option Nat) (files : List String) : Nat :=
  let lastDocId := match stateVal with
    | some v => v
    | none => 0
  let existingFiles := files.filter (fun f => isDocTxtName f)
  if existingFiles.isEmpty then lastDocId
  else
    let maxId := existingFiles.foldl (fun m f =>
      match docIdOfStem (fileStem f) with
      | some i => max m i
      | none => m) 0
    if lastDocId < maxId then maxId else lastDocId

/-- The spec's description of the disk scan, stated independently of the
code's control flow: the maximum numeric suffix over the `doc_*.txt` files
present (0 when there is none). -/
def maxDiskDocId (files : List String) : Nat :=
  ((files.filter (fun f => isDocTxtName f)).filterMap
    (fun f => docIdOfStem (fileStem f))).foldl max 0

/-! ## Auxiliary definitions used by the theorems -/

/-- The save filter of `crawl` line 378, `text_content and len(text_content)
>= self.min_content_length`, as a predicate on the extraction result. -/
def contentPasses (cfg : CrawlConfig) : Option String → Bool
  | some text => !(text = "") && decide (cfg.minContentLength ≤ text.length)
  | none => false

/-- Termination measure of one frontier URL at `k = max_depth + 1 - depth`
remaining levels: an upper bound on the number of loop iterations its subtree
can cause (1 for itself plus, if it can still be mined, the measures of its
links one level deeper). -/
def urlCost (env : CrawlEnv) : Nat → String → Nat
  | 0, _ => 1
  | k + 1, url =>
    match env.fetchHtml url with
    | none => 1
    | some html =>
      1 + ((env.extractLinks html url).map
        (fun l => urlCost env k (env.normalizeUrl l))).sum

/-- Termination measure of one frontier entry. -/
def entryCost (env : CrawlEnv) (cfg : CrawlConfig) (e : String × Nat) : Nat :=
  urlCost env (cfg.maxDepth + 1 - e.2) e.1

/-- Termination measure of a frontier: the loop runs at most this many more
iterations. -/
def phiQ (env : CrawlEnv) (cfg : CrawlConfig) (q : List (String × Nat)) : Nat :=
  (q.map (entryCost env cfg)).sum

/-- A concrete environment for closed runs: every URL is its own domain,
robots allows everything, every fetch returns an empty page whose extracted
text is the single character `x` (below any positive minimum length) with no
links, and saving always succeeds. -/
def flatEnv : CrawlEnv :=
  { normalizeUrl := id
    domainOf := id
    robotsCanFetch := fun _ => true
    fetchHtml := fun _ => some ""
    extractContent := fun _ => (none, some "x", none)
    extractLinks := fun _ _ => []
    saveOk := fun _ _ => true }

/-- A concrete configuration with a page budget of 1 and a minimum content
length of 2 (so `flatEnv`'s pages are never saved). -/
def flatCfg : CrawlConfig :=
  { maxPages := 1, maxDepth := 0, maxPagesPerDomain := 1, minContentLength := 2 }

/-- Pairwise distinct non-empty seed URLs: the strings `a`, `aa`, `aaa`, …. -/
def seedList (n : Nat) : List String :=
  (List.range n).map (fun i => String.mk (List.replicate (i + 1) 'a'))

/-- A concrete environment whose pages extract a two-character text (meeting
`flatCfg`'s minimum of 2) but whose document save always fails with an I/O
error. -/
def failSaveEnv : CrawlEnv :=
  { flatEnv with
    extractContent := fun _ => (none, some "xx", none)
    saveOk := fun _ _ => false }

/-- A concrete environment whose pages extract a two-character text (meeting
`flatCfg`'s minimum of 2) and whose document save succeeds. -/
def okSaveEnv : CrawlEnv :=
  { flatEnv with extractContent := fun _ => (none, some "xx", none) }

/-! ## Core theorems about the crawl loop -/

theorem Reachable.invariant {env : CrawlEnv} {cfg : CrawlConfig} {P : CrawlState → Prop}
    (hstep : ∀ u, P u → P (crawlStep env cfg u)) :
    ∀ {s t : CrawlState}, Reachable env cfg s t → P s → P t := by
  intro s t h hs
  induction h with
  | refl s => exact hs
  | head hq hp _ ih => exact ih (hstep _ hs)

theorem crawlLoop_reachable (env : CrawlEnv) (cfg : CrawlConfig) :
    ∀ (fuel : Nat) (s s' : CrawlState), crawlLoop env cfg fuel s = some s' →
      Reachable env cfg s s' := by
  intro fuel
  induction fuel with
  | zero => intro s s' h; exact absurd h (by simp [crawlLoop])
  | succ fuel ih =>
    intro s s' h
    rw [crawlLoop] at h
    split at h
    · cases h; exact Reachable.refl _
    · rename_i hguard
      push_neg at hguard
      exact Reachable.head hguard.1 hguard.2 (ih _ _ h)

/-! ## Helper lemmas about the loop's building blocks -/

@[simp] theorem fetchUrls_nil : fetchUrls [] = [] := rfl

@[simp] theorem fetchUrls_cons_fetch (u : String) (d : Nat) (ok : Bool) (tr : List Event) :
    fetchUrls (Event.fetch u d ok :: tr) = u :: fetchUrls tr := rfl

@[simp] theorem fetchUrls_cons_save (i : Nat) (u : String) (ok : Bool) (tr : List Event) :
    fetchUrls (Event.save i u ok :: tr) = fetchUrls tr := rfl

@[simp] theorem fetchUrls_cons_push (u : String) (d p : Nat) (tr : List Event) :
    fetchUrls (Event.push u d p :: tr) = fetchUrls tr := rfl

@[simp] theorem fetchEvents_nil : fetchEvents [] = [] := rfl

@[simp] theorem fetchEvents_cons_fetch (u : String) (d : Nat) (ok : Bool) (tr : List Event) :
    fetchEvents (Event.fetch u d ok :: tr) = (u, d) :: fetchEvents tr := rfl

@[simp] theorem fetchEvents_cons_save (i : Nat) (u : String) (ok : Bool) (tr : List Event) :
    fetchEvents (Event.save i u ok :: tr) = fetchEvents tr := rfl

@[simp] theorem fetchEvents_cons_push (u : String) (d p : Nat) (tr : List Event) :
    fetchEvents (Event.push u d p :: tr) = fetchEvents tr := rfl

@[simp] theorem savedIds_nil : savedIds [] = [] := rfl

@[simp] theorem savedIds_cons_fetch (u : String) (d : Nat) (ok : Bool) (tr : List Event) :
    savedIds (Event.fetch u d ok :: tr) = savedIds tr := rfl

@[simp] theorem savedIds_cons_save_true (i : Nat) (u : String) (tr : List Event) :
    savedIds (Event.save i u true :: tr) = i :: savedIds tr := rfl

@[simp] theorem savedIds_cons_save_false (i : Nat) (u : String) (tr : List Event) :
    savedIds (Event.save i u false :: tr) = savedIds tr := rfl

@[simp] theorem savedIds_cons_push (u : String) (d p : Nat) (tr : List Event) :
    savedIds (Event.push u d p :: tr) = savedIds tr := rfl

@[simp] theorem saveEvents_nil : saveEvents [] = [] := rfl

@[simp] theorem saveEvents_cons_fetch (u : String) (d : Nat) (ok : Bool) (tr : List Event) :
    saveEvents (Event.fetch u d ok :: tr) = saveEvents tr := rfl

@[simp] theorem saveEvents_cons_save (i : Nat) (u : String) (ok : Bool) (tr : List Event) :
    saveEvents (Event.save i u ok :: tr) = (i, u, ok) :: saveEvents tr := rfl

@[simp] theorem saveEvents_cons_push (u : String) (d p : Nat) (tr : List Event) :
    saveEvents (Event.push u d p :: tr) = saveEvents tr := rfl

@[simp] theorem pushEvents_nil : pushEvents [] = [] := rfl

@[simp] theorem pushEvents_cons_fetch (u : String) (d : Nat) (ok : Bool) (tr : List Event) :
    pushEvents (Event.fetch u d ok :: tr) = pushEvents tr := rfl

@[simp] theorem pushEvents_cons_save (i : Nat) (u : String) (ok : Bool) (tr : List Event) :
    pushEvents (Event.save i u ok :: tr) = pushEvents tr := rfl

@[simp] theorem pushEvents_cons_push (u : String) (d p : Nat) (tr : List Event) :
    pushEvents (Event.push u d p :: tr) = (u, d, p) :: pushEvents tr := rfl

theorem pushLinks_visited (env : CrawlEnv) (depth : Nat) :
    ∀ (links : List String) (s : CrawlState),
      (pushLinks env depth links s).visited = s.visited := by
  intro links
  induction links with
  | nil => intro s; rfl
  | cons l ls ih =>
    intro s
    simp only [pushLinks]
    split
    · exact ih _
    · exact ih _

theorem pushLinks_documentsSaved (env : CrawlEnv) (depth : Nat) :
    ∀ (links : List String) (s : CrawlState),
      (pushLinks env depth links s).documentsSaved = s.documentsSaved := by
  intro links
  induction links with
  | nil => intro s; rfl
  | cons l ls ih =>
    intro s
    simp only [pushLinks]
    split
    · exact ih _
    · exact ih _

theorem pushLinks_pagesCrawled (env : CrawlEnv) (depth : Nat) :
    ∀ (links : List String) (s : CrawlState),
      (pushLinks env depth links s).pagesCrawled = s.pagesCrawled := by
  intro links
  induction links with
  | nil => intro s; rfl
  | cons l ls ih =>
    intro s
    simp only [pushLinks]
    split
    · exact ih _
    · exact ih _

theorem pushLinks_lastDocId (env : CrawlEnv) (depth : Nat) :
    ∀ (links : List String) (s : CrawlState),
      (pushLinks env depth links s).lastDocId = s.lastDocId := by
  intro links
  induction links with
  | nil => intro s; rfl
  | cons l ls ih =>
    intro s
    simp only [pushLinks]
    split
    · exact ih _
    · exact ih _

theorem pushLinks_urlsVisited (env : CrawlEnv) (depth : Nat) :
    ∀ (links : List String) (s : CrawlState),
      (pushLinks env depth links s).urlsVisited = s.urlsVisited := by
  intro links
  induction links with
  | nil => intro s; rfl
  | cons l ls ih =>
    intro s
    simp only [pushLinks]
    split
    · exact ih _
    · exact ih _

theorem pushLinks_fetchUrls (env : CrawlEnv) (depth : Nat) :
    ∀ (links : List String) (s : CrawlState),
      fetchUrls (pushLinks env depth links s).trace = fetchUrls s.trace := by
  intro links
  induction links with
  | nil => intro s; rfl
  | cons l ls ih =>
    intro s
    simp only [pushLinks]
    split
    · exact (ih _).trans (by simp)
    · exact ih _

theorem pushLinks_fetchEvents (env : CrawlEnv) (depth : Nat) :
    ∀ (links : List String) (s : CrawlState),
      fetchEvents (pushLinks env depth links s).trace = fetchEvents s.trace := by
  intro links
  induction links with
  | nil => intro s; rfl
  | cons l ls ih =>
    intro s
    simp only [pushLinks]
    split
    · exact (ih _).trans (by simp)
    · exact ih _

theorem pushLinks_savedIds (env : CrawlEnv) (depth : Nat) :
    ∀ (links : List String) (s : CrawlState),
      savedIds (pushLinks env depth links s).trace = savedIds s.trace := by
  intro links
  induction links with
  | nil => intro s; rfl
  | cons l ls ih =>
    intro s
    simp only [pushLinks]
    split
    · exact (ih _).trans (by simp)
    · exact ih _

theorem pushLinks_saveEvents (env : CrawlEnv) (depth : Nat) :
    ∀ (links : List String) (s : CrawlState),
      saveEvents (pushLinks env depth links s).trace = saveEvents s.trace := by
  intro links
  induction links with
  | nil => intro s; rfl
  | cons l ls ih =>
    intro s
    simp only [pushLinks]
    split
    · exact (ih _).trans (by simp)
    · exact ih _

theorem pushLinks_pushEvents_mem (env : CrawlEnv) (depth : Nat) :
    ∀ (links : List String) (s : CrawlState) (p : String × Nat × Nat),
      p ∈ pushEvents (pushLinks env depth links s).trace →
      p ∈ pushEvents s.trace ∨ (p.2.1 = depth + 1 ∧ p.2.2 = depth) := by
  intro links
  induction links with
  | nil => intro s p hp; exact Or.inl hp
  | cons l ls ih =>
    intro s p hp
    rw [pushLinks] at hp
    split at hp
    · rcases ih _ _ hp with h | h
      · simp only [pushEvents_cons_push, List.mem_cons] at h
        rcases h with h | h
        · subst h; exact Or.inr ⟨rfl, rfl⟩
        · exact Or.inl h
      · exact Or.inr h
    · exact ih _ _ hp

theorem pushLinks_queue_mem (env : CrawlEnv) (depth : Nat) :
    ∀ (links : List String) (s : CrawlState) (e : String × Nat),
      e ∈ (pushLinks env depth links s).queue →
      e ∈ s.queue ∨ e.2 = depth + 1 := by
  intro links
  induction links with
  | nil => intro s e he; exact Or.inl he
  | cons l ls ih =>
    intro s e he
    rw [pushLinks] at he
    split at he
    · rcases ih _ _ he with h | h
      · rcases List.mem_append.mp h with h | h
        · exact Or.inl h
        · simp only [List.mem_singleton] at h
          subst h; exact Or.inr rfl
      · exact Or.inr h
    · exact ih _ _ he

theorem pushLinks_dedup (env : CrawlEnv) (depth : Nat) :
    ∀ (links : List String) (s : CrawlState),
      (s.queue.map Prod.fst).Nodup → (∀ u ∈ s.queue.map Prod.fst, u ∉ s.visited) →
      ((pushLinks env depth links s).queue.map Prod.fst).Nodup ∧
        ∀ u ∈ (pushLinks env depth links s).queue.map Prod.fst,
          u ∉ (pushLinks env depth links s).visited := by
  intro links
  induction links with
  | nil => intro s h1 h2; exact ⟨h1, h2⟩
  | cons l ls ih =>
    intro s h1 h2
    simp only [pushLinks]
    split
    · rename_i hguard
      apply ih
      · simp only [List.map_append, List.map_cons, List.map_nil]
        simp only [List.nodup_append, List.nodup_cons, List.nodup_nil]
        refine ⟨h1, ⟨by simp, by simp⟩, ?_⟩
        intro a ha
        simp only [List.mem_singleton]
        intro heq
        exact hguard.2.2 (heq ▸ ha)
      · intro u hu
        simp only [List.map_append, List.map_cons, List.map_nil,
          List.mem_append, List.mem_singleton] at hu
        rcases hu with hu | hu
        · exact h2 u hu
        · subst hu; exact hguard.2.1
    · exact ih _ h1 h2

theorem savePhase_queue (env : CrawlEnv) (cfg : CrawlConfig) (url : String)
    (t : Option String) (s : CrawlState) :
    (savePhase env cfg url t s).queue = s.queue := by
  rcases t with _ | text
  · rfl
  · simp only [savePhase]
    split
    · split <;> rfl
    · rfl

theorem savePhase_visited (env : CrawlEnv) (cfg : CrawlConfig) (url : String)
    (t : Option String) (s : CrawlState) :
    (savePhase env cfg url t s).visited = s.visited := by
  rcases t with _ | text
  · rfl
  · simp only [savePhase]
    split
    · split <;> rfl
    · rfl

theorem savePhase_urlsVisited (env : CrawlEnv) (cfg : CrawlConfig) (url : String)
    (t : Option String) (s : CrawlState) :
    (savePhase env cfg url t s).urlsVisited = s.urlsVisited := by
  rcases t with _ | text
  · rfl
  · simp only [savePhase]
    split
    · split <;> rfl
    · rfl

theorem savePhase_fetchUrls (env : CrawlEnv) (cfg : CrawlConfig) (url : String)
    (t : Option String) (s : CrawlState) :
    fetchUrls (savePhase env cfg url t s).trace = fetchUrls s.trace := by
  rcases t with _ | text
  · rfl
  · simp only [savePhase]
    split
    · split <;> simp
    · rfl

theorem savePhase_fetchEvents (env : CrawlEnv) (cfg : CrawlConfig) (url : String)
    (t : Option String) (s : CrawlState) :
    fetchEvents (savePhase env cfg url t s).trace = fetchEvents s.trace := by
  rcases t with _ | text
  · rfl
  · simp only [savePhase]
    split
    · split <;> simp
    · rfl

theorem savePhase_pushEvents (env : CrawlEnv) (cfg : CrawlConfig) (url : String)
    (t : Option String) (s : CrawlState) :
    pushEvents (savePhase env cfg url t s).trace = pushEvents s.trace := by
  rcases t with _ | text
  · rfl
  · simp only [savePhase]
    split
    · split <;> simp
    · rfl

theorem savePhase_counters (env : CrawlEnv) (cfg : CrawlConfig) (url : String)
    (t : Option String) (s : CrawlState) :
    (let r := savePhase env cfg url t s
     (r.documentsSaved = s.documentsSaved ∧ r.pagesCrawled = s.pagesCrawled ∧
       r.lastDocId = s.lastDocId ∧ savedIds r.trace = savedIds s.trace) ∨
     (r.documentsSaved = s.documentsSaved + 1 ∧ r.pagesCrawled = s.pagesCrawled + 1 ∧
       r.lastDocId = s.lastDocId + 1 ∧
       savedIds r.trace = (s.lastDocId + 1) :: savedIds s.trace)) := by
  rcases t with _ | text
  · exact Or.inl ⟨rfl, rfl, rfl, rfl⟩
  · simp only [savePhase]
    split
    · split
      · exact Or.inr ⟨rfl, rfl, rfl, by simp⟩
      · exact Or.inl ⟨rfl, rfl, rfl, by simp⟩
    · exact Or.inl ⟨rfl, rfl, rfl, rfl⟩

/-- Exhaustive description of one loop iteration: the queue is popped, and the
entry is either discarded (visited / depth / domain cap), skipped by robots,
or visited and fetched, the fetch failing or succeeding into `processPage`. -/
theorem crawlStep_shape (env : CrawlEnv) (cfg : CrawlConfig) (s : CrawlState) :
    (s.queue = [] ∧ crawlStep env cfg s = s) ∨
    ∃ url depth rest, s.queue = (url, depth) :: rest ∧
      ((crawlStep env cfg s = { s with queue := rest } ∧
         (url ∈ s.visited ∨ cfg.maxDepth < depth ∨
           cfg.maxPagesPerDomain ≤ getCount s.domainPageCounts (env.domainOf url))) ∨
       (crawlStep env cfg s = { s with queue := rest, urlsSkipped := s.urlsSkipped + 1 } ∧
         url ∉ s.visited ∧ depth ≤ cfg.maxDepth ∧ env.robotsCanFetch url = false) ∨
       (url ∉ s.visited ∧ depth ≤ cfg.maxDepth ∧
         (env.fetchHtml url = none ∧
           crawlStep env cfg s =
             { s with
               queue := rest
               visited := url :: s.visited
               urlsVisited := s.urlsVisited + 1
               domainPageCounts := bumpCount s.domainPageCounts (env.domainOf url)
               failed := url :: s.failed
               urlsFailed := s.urlsFailed + 1
               trace := Event.fetch url depth false :: s.trace } ∨
          ∃ html, env.fetchHtml url = some html ∧
           crawlStep env cfg s = processPage env cfg url depth html
             { s with
               queue := rest
               visited := url :: s.visited
               urlsVisited := s.urlsVisited + 1
               domainPageCounts := bumpCount s.domainPageCounts (env.domainOf url)
               trace := Event.fetch url depth true :: s.trace }))) := by
  rcases hq : s.queue with _ | ⟨⟨url, depth⟩, rest⟩
  · exact Or.inl ⟨rfl, by simp only [crawlStep, hq]⟩
  · right
    refine ⟨url, depth, rest, rfl, ?_⟩
    simp only [crawlStep, hq]
    by_cases h1 : url ∈ s.visited
    · exact Or.inl ⟨by simp [h1], Or.inl h1⟩
    · by_cases h2 : cfg.maxDepth < depth
      · exact Or.inl ⟨by simp [h1, h2], Or.inr (Or.inl h2)⟩
      · by_cases h3 : cfg.maxPagesPerDomain ≤ getCount s.domainPageCounts (env.domainOf url)
        · exact Or.inl ⟨by simp [h1, h2, h3], Or.inr (Or.inr h3)⟩
        · by_cases h4 : env.robotsCanFetch url = false
          · refine Or.inr (Or.inl ⟨by simp [h1, h2, h3, h4], h1, Nat.not_lt.mp h2, h4⟩)
          · rcases hf : env.fetchHtml url with _ | html
            · refine Or.inr (Or.inr ⟨h1, Nat.not_lt.mp h2, Or.inl ⟨rfl, ?_⟩⟩)
              simp [h1, h2, h3, h4, hf]
            · refine Or.inr (Or.inr ⟨h1, Nat.not_lt.mp h2, Or.inr ⟨html, rfl, ?_⟩⟩)
              simp [h1, h2, h3, h4, hf]

/-! ## Lemmas about the fetcher and state-loading models -/

theorem retryLoop_attempts_le (responses : Nat → Nat) :
    ∀ (r attempt : Nat), (retryLoop responses r attempt).attempts ≤ attempt + r + 1 := by
  intro r
  induction r with
  | zero =>
    intro attempt
    simp only [retryLoop]
    split <;> simp
  | succ r ih =>
    intro attempt
    simp only [retryLoop]
    split
    · have h := ih (attempt + 1)
      change (retryLoop responses r (attempt + 1)).attempts ≤ _
      omega
    · change attempt + 1 ≤ _
      omega

theorem foldl_maxId_eq (g : String → Option Nat) :
    ∀ (l : List String) (m : Nat),
      l.foldl (fun acc f =>
        match g f with
        | some i => max acc i
        | none => acc) m = (l.filterMap g).foldl max m := by
  intro l
  induction l with
  | nil => intro m; rfl
  | cons f fs ih =>
    intro m
    simp only [List.foldl_cons, List.filterMap_cons]
    rcases hg : g f with _ | i <;> simp only [hg, List.foldl_cons] <;> rw [ih]

theorem loadLastDocId_eq_max (stateVal : Option Nat) (files : List String) :
    loadLastDocId stateVal files = max (stateVal.getD 0) (maxDiskDocId files) := by
  rcases stateVal with _ | v
  all_goals
    simp only [loadLastDocId, maxDiskDocId, Option.getD]
    split
    · rename_i hempty
      rw [List.isEmpty_iff] at hempty
      rw [hempty]
      simp
    · rw [foldl_maxId_eq]
      rw [Nat.max_def]
      split <;> split <;> omega

theorem processPage_visited (env : CrawlEnv) (cfg : CrawlConfig) (url : String)
    (depth : Nat) (html : String) (s : CrawlState) :
    (processPage env cfg url depth html s).visited = s.visited := by
  simp only [processPage]
  split
  · rw [pushLinks_visited, savePhase_visited]
  · rw [savePhase_visited]

theorem processPage_fetchUrls (env : CrawlEnv) (cfg : CrawlConfig) (url : String)
    (depth : Nat) (html : String) (s : CrawlState) :
    fetchUrls (processPage env cfg url depth html s).trace = fetchUrls s.trace := by
  simp only [processPage]
  split
  · rw [pushLinks_fetchUrls, savePhase_fetchUrls]
  · rw [savePhase_fetchUrls]

theorem processPage_fetchEvents (env : CrawlEnv) (cfg : CrawlConfig) (url : String)
    (depth : Nat) (html : String) (s : CrawlState) :
    fetchEvents (processPage env cfg url depth html s).trace = fetchEvents s.trace := by
  simp only [processPage]
  split
  · rw [pushLinks_fetchEvents, savePhase_fetchEvents]
  · rw [savePhase_fetchEvents]

theorem processPage_queue_mem (env : CrawlEnv) (cfg : CrawlConfig) (url : String)
    (depth : Nat) (html : String) (s : CrawlState) (e : String × Nat)
    (he : e ∈ (processPage env cfg url depth html s).queue) :
    e ∈ s.queue ∨ (e.2 = depth + 1 ∧ depth < cfg.maxDepth) := by
  rw [processPage] at he
  split at he
  · rcases pushLinks_queue_mem env depth _ _ e he with h | h
    · rw [savePhase_queue] at h
      exact Or.inl h
    · rename_i hlt
      exact Or.inr ⟨h, hlt⟩
  · rw [savePhase_queue] at he
    exact Or.inl he

theorem processPage_pushEvents_mem (env : CrawlEnv) (cfg : CrawlConfig) (url : String)
    (depth : Nat) (html : String) (s : CrawlState) (p : String × Nat × Nat)
    (hp : p ∈ pushEvents (processPage env cfg url depth html s).trace) :
    p ∈ pushEvents s.trace ∨ (p.2.1 = depth + 1 ∧ p.2.2 = depth ∧ depth < cfg.maxDepth) := by
  rw [processPage] at hp
  split at hp
  · rcases pushLinks_pushEvents_mem env depth _ _ p hp with h | h
    · rw [savePhase_pushEvents] at h
      exact Or.inl h
    · rename_i hlt
      exact Or.inr ⟨h.1, h.2, hlt⟩
  · rw [savePhase_pushEvents] at hp
    exact Or.inl hp

theorem seedQueue_depth (env : CrawlEnv) (visited0 : List String) :
    ∀ (seeds : List String) (e : String × Nat),
      e ∈ seedQueue env visited0 seeds → e.2 = 0 := by
  intro seeds
  induction seeds with
  | nil => intro e he; exact absurd he (by simp [seedQueue])
  | cons s0 rest ih =>
    intro e he
    rw [seedQueue] at he
    split at he
    · rcases List.mem_cons.mp he with h | h
      · rw [h]
      · exact ih e h
    · exact ih e he

theorem contentPasses_some_iff (cfg : CrawlConfig) (text : String) :
    contentPasses cfg (some text) = true ↔
      text ≠ "" ∧ cfg.minContentLength ≤ text.length := by
  simp [contentPasses]

theorem savePhase_skip (env : CrawlEnv) (cfg : CrawlConfig) (url text : String)
    (s : CrawlState) (hg : ¬ (text ≠ "" ∧ cfg.minContentLength ≤ text.length)) :
    savePhase env cfg url (some text) s = s := by
  rw [savePhase, if_neg hg]

theorem savePhase_saveFail (env : CrawlEnv) (cfg : CrawlConfig) (url text : String)
    (s : CrawlState) (hg : text ≠ "" ∧ cfg.minContentLength ≤ text.length)
    (hok : env.saveOk (s.lastDocId + 1) url = false) :
    savePhase env cfg url (some text) s =
      { s with trace := Event.save (s.lastDocId + 1) url false :: s.trace } := by
  rw [savePhase, if_pos hg]
  show (if env.saveOk (s.lastDocId + 1) url then _ else _) = _
  rw [hok]
  simp

theorem savePhase_saveOk (env : CrawlEnv) (cfg : CrawlConfig) (url text : String)
    (s : CrawlState) (hg : text ≠ "" ∧ cfg.minContentLength ≤ text.length)
    (hok : env.saveOk (s.lastDocId + 1) url = true) :
    savePhase env cfg url (some text) s =
      { s with
        lastDocId := s.lastDocId + 1
        documentsSaved := s.documentsSaved + 1
        pagesCrawled := s.pagesCrawled + 1
        trace := Event.save (s.lastDocId + 1) url true :: s.trace } := by
  rw [savePhase, if_pos hg]
  show (if env.saveOk (s.lastDocId + 1) url then _ else _) = _
  rw [hok]
  simp

theorem processPage_ids (env : CrawlEnv) (cfg : CrawlConfig) (url : String)
    (depth : Nat) (html : String) (s : CrawlState) :
    ((processPage env cfg url depth html s).lastDocId = s.lastDocId ∧
      savedIds (processPage env cfg url depth html s).trace = savedIds s.trace) ∨
    ((processPage env cfg url depth html s).lastDocId = s.lastDocId + 1 ∧
      savedIds (processPage env cfg url depth html s).trace =
        (s.lastDocId + 1) :: savedIds s.trace) := by
  have hsp := savePhase_counters env cfg url (env.extractContent html).2.1 s
  simp only [processPage]
  split
  · rw [pushLinks_lastDocId, pushLinks_savedIds]
    rcases hsp with ⟨_, _, h3, h4⟩ | ⟨_, _, h3, h4⟩
    · exact Or.inl ⟨h3, h4⟩
    · exact Or.inr ⟨h3, h4⟩
  · rcases hsp with ⟨_, _, h3, h4⟩ | ⟨_, _, h3, h4⟩
    · exact Or.inl ⟨h3, h4⟩
    · exact Or.inr ⟨h3, h4⟩

theorem savedIds_invariant (env : CrawlEnv) (cfg : CrawlConfig)
    (visited0 : List String) (lastDocId0 : Nat) (seeds : List String) (s : CrawlState)
    (hreach : Reachable env cfg (initState env visited0 lastDocId0 seeds) s) :
    lastDocId0 ≤ s.lastDocId ∧
    (∀ i ∈ savedIds s.trace, lastDocId0 < i ∧ i ≤ s.lastDocId) ∧
    (savedIds s.trace).Pairwise (fun a b => b < a) := by
  refine Reachable.invariant (P := fun t =>
    lastDocId0 ≤ t.lastDocId ∧
    (∀ i ∈ savedIds t.trace, lastDocId0 < i ∧ i ≤ t.lastDocId) ∧
    (savedIds t.trace).Pairwise (fun a b => b < a))
    ?_ hreach ⟨Nat.le_refl _, by simp [initState], by simp [initState]⟩
  intro t ht
  obtain ⟨hle, hmem, hpw⟩ := ht
  rcases crawlStep_shape env cfg t with ⟨_, hstep⟩ | ⟨url, depth, rest, hq, hcase⟩
  · rw [hstep]; exact ⟨hle, hmem, hpw⟩
  · rcases hcase with ⟨hstep, _⟩ | ⟨hstep, _⟩ |
      ⟨hvis, hdep, ⟨_, hstep⟩ | ⟨html, hfetch, hstep⟩⟩
    · rw [hstep]; exact ⟨hle, hmem, hpw⟩
    · rw [hstep]; exact ⟨hle, hmem, hpw⟩
    · rw [hstep]
      exact ⟨hle, by simpa using hmem, by simpa using hpw⟩
    · rw [hstep]
      have hgen : ∀ u : CrawlState, u.lastDocId = t.lastDocId →
          savedIds u.trace = savedIds t.trace →
          lastDocId0 ≤ (processPage env cfg url depth html u).lastDocId ∧
          (∀ i ∈ savedIds (processPage env cfg url depth html u).trace,
            lastDocId0 < i ∧ i ≤ (processPage env cfg url depth html u).lastDocId) ∧
          (savedIds (processPage env cfg url depth html u).trace).Pairwise
            (fun a b => b < a) := by
        intro u hu1 hu2
        rcases processPage_ids env cfg url depth html u with ⟨h1, h2⟩ | ⟨h1, h2⟩
        · rw [h1, h2, hu1, hu2]
          exact ⟨hle, hmem, hpw⟩
        · rw [h1, h2, hu1, hu2]
          refine ⟨by omega, ?_, ?_⟩
          · intro i hi
            rcases List.mem_cons.mp hi with h | h
            · subst h
              exact ⟨by omega, Nat.le_refl _⟩
            · have hm := hmem i h
              exact ⟨hm.1, by omega⟩
          · rw [List.pairwise_cons]
            refine ⟨?_, hpw⟩
            intro j hj
            have hm := hmem j hj
            omega
      exact hgen _ rfl (by simp)

/-! ## Claim theorems -/

/-- Claim C1 (evaluation of the code at the failing input): when
`RobotFileParser.read()` raises for a domain's robots.txt (connection or DNS
failure, decode error), `get_robots_parser` caches a fresh, never-read
`RobotFileParser` — and CPython's `can_fetch` refuses every URL while
`last_checked` is unset, so `RobotsTxtParser.can_fetch` answers `false` for
the domain's URLs, both on the query that populates the cache and on every
later query against the cached record.  The domain is therefore blocked for
the rest of the run, contradicting the claimed permissive allow-all default. -/
theorem robots_read_failure_blocks_domain :
    (robotsTxtCanFetch (fun _ => RobotsReadOutcome.failure) (fun _ => "https://x.test")
      { robotsCache := [] } "https://x.test/page").1 = false ∧
    (robotsTxtCanFetch (fun _ => RobotsReadOutcome.failure) (fun _ => "https://x.test")
      (robotsTxtCanFetch (fun _ => RobotsReadOutcome.failure) (fun _ => "https://x.test")
        { robotsCache := [] } "https://x.test/page").2 "https://x.test/other").1 = false := by
  exact ⟨rfl, rfl⟩

/-- Claim C6: the session built by `_create_session` retries exactly the
statuses of the forcelist 429/500/502/503/504, at most `total = 3` times with
exponentially growing backoff delays; any other status (in particular any
other 4xx) is handed back to `requests` after a single attempt with no retry;
a malformed URL never reaches the retry loop; and `_fetch_url` turns
exhausted retries, HTTP error statuses and malformed URLs into a `None`
result instead of a propagating exception. -/
theorem fetcher_retry_policy :
    (∀ responses : Nat → Nat, responses 0 ∉ statusForcelist →
      sessionGet responses =
        { result := some (responses 0), attempts := 1, delays := [] }) ∧
    (∀ responses : Nat → Nat, (∀ i, responses i ∈ statusForcelist) →
      sessionGet responses =
        { result := none, attempts := retryTotal + 1,
          delays := [backoffDelay 1, backoffDelay 2, backoffDelay 3] } ∧
      ∀ body, fetchUrlResult true responses body = none) ∧
    (∀ responses : Nat → Nat, (sessionGet responses).attempts ≤ retryTotal + 1) ∧
    (∀ (responses : Nat → Nat) (body : String), fetchUrlResult false responses body = none) ∧
    (backoffDelay 1 = 1 ∧ backoffDelay 2 = 2 ∧ backoffDelay 3 = 4) ∧
    (∀ (responses : Nat → Nat) (body : String) (st : Nat),
      (sessionGet responses).result = some st → 400 ≤ st →
      fetchUrlResult true responses body = none) := by
  refine ⟨?_, ?_, ?_, ?_, ⟨by decide, by decide, by decide⟩, ?_⟩
  · intro responses h
    show retryLoop responses 3 0 = _
    rw [retryLoop, if_neg h]
  · intro responses h
    have heq : sessionGet responses =
        { result := none, attempts := retryTotal + 1,
          delays := [backoffDelay 1, backoffDelay 2, backoffDelay 3] } := by
      show retryLoop responses 3 0 = _
      rw [retryLoop, if_pos (h 0)]
      rw [retryLoop, if_pos (h 1)]
      rw [retryLoop, if_pos (h 2)]
      rw [retryLoop, if_pos (h 3)]
      rfl
    refine ⟨heq, ?_⟩
    intro body
    simp [fetchUrlResult, heq]
  · intro responses
    have h := retryLoop_attempts_le responses retryTotal 0
    show (retryLoop responses retryTotal 0).attempts ≤ retryTotal + 1
    omega
  · intro responses body
    rfl
  · intro responses body st hst h400
    simp [fetchUrlResult, hst, h400]

/-- Witness for `fetcher_retry_policy` at concrete response sequences:
a plain 404 is returned after one attempt with no retry, a permanent 503 is
retried three times with delays 1, 2, 4 and then reported as a `None` fetch
result, and a malformed URL yields `None` directly. -/
theorem fetcher_retry_policy_witness :
    sessionGet (fun _ => 404) = { result := some 404, attempts := 1, delays := [] } ∧
    sessionGet (fun _ => 503) = { result := none, attempts := 4, delays := [1, 2, 4] } ∧
    fetchUrlResult true (fun _ => 503) "page" = none ∧
    fetchUrlResult false (fun _ => 200) "page" = none := by
  refine ⟨fetcher_retry_policy.1 (fun _ => 404) (by decide), ?_, ?_,
    fetcher_retry_policy.2.2.2.1 (fun _ => 200) "page"⟩
  · exact (fetcher_retry_policy.2.1 (fun _ => 503) (by intro i; show (503 : Nat) ∈ statusForcelist; decide)).1
  · exact (fetcher_retry_policy.2.1 (fun _ => 503) (by intro i; show (503 : Nat) ∈ statusForcelist; decide)).2 "page"

theorem seedQueue_mem (env : CrawlEnv) (visited0 : List String) :
    ∀ (seeds : List String) (u : String),
      u ∈ (seedQueue env visited0 seeds).map Prod.fst →
      u ∈ seeds.map env.normalizeUrl ∧ u ∉ visited0 := by
  intro seeds
  induction seeds with
  | nil => intro u hu; exact absurd hu (by simp [seedQueue])
  | cons s0 rest ih =>
    intro u hu
    rw [seedQueue] at hu
    split at hu
    · rename_i hguard
      simp only [List.map_cons, List.mem_cons] at hu ⊢
      rcases hu with hu | hu
      · subst hu; exact ⟨Or.inl rfl, hguard.2⟩
      · have := ih u hu
        exact ⟨Or.inr this.1, this.2⟩
    · have := ih u hu
      simp only [List.map_cons, List.mem_cons]
      exact ⟨Or.inr this.1, this.2⟩

theorem seedQueue_nodup (env : CrawlEnv) (visited0 : List String) :
    ∀ seeds : List String, (seeds.map env.normalizeUrl).Nodup →
      ((seedQueue env visited0 seeds).map Prod.fst).Nodup := by
  intro seeds
  induction seeds with
  | nil => intro _; simp [seedQueue]
  | cons s0 rest ih =>
    intro hnd
    simp only [List.map_cons, List.nodup_cons] at hnd
    rw [seedQueue]
    split
    · simp only [List.map_cons, List.nodup_cons]
      refine ⟨?_, ih hnd.2⟩
      intro hmem
      exact hnd.1 (seedQueue_mem env visited0 rest _ hmem).1
    · exact ih hnd.2

/-- Claim C2 (counterexample): the claim fails at the seed loop.  With
identity normalization and the same seed URL given twice, the loop-entry
state — reachable in zero steps — holds two queue entries with the same
normalized URL, because the seed loop (source lines 335–338) checks each seed
only against the visited set and never against the queue. -/
theorem seed_duplicate_counterexample :
    Reachable flatEnv flatCfg (initState flatEnv [] 0 ["a", "a"])
      (initState flatEnv [] 0 ["a", "a"]) ∧
    ¬ (((initState flatEnv [] 0 ["a", "a"]).queue.map Prod.fst).Nodup) := by
  exact ⟨Reachable.refl _, by decide⟩

/-- Claim C2 (amended): during link mining no entry is ever enqueued whose
normalized URL is already in the visited set or already queued; the seed loop
checks seeds only against the visited set, so provided the normalized seed
URLs are pairwise distinct, every state reachable during the crawl has a
duplicate-free queue that is disjoint from the visited set. -/
theorem frontier_dedup_invariant (env : CrawlEnv) (cfg : CrawlConfig)
    (visited0 : List String) (lastDocId0 : Nat) (seeds : List String) (s : CrawlState)
    (hseeds : (seeds.map env.normalizeUrl).Nodup)
    (hreach : Reachable env cfg (initState env visited0 lastDocId0 seeds) s) :
    (s.queue.map Prod.fst).Nodup ∧ ∀ u ∈ s.queue.map Prod.fst, u ∉ s.visited := by
  refine Reachable.invariant (P := fun t =>
    (t.queue.map Prod.fst).Nodup ∧ ∀ u ∈ t.queue.map Prod.fst, u ∉ t.visited)
    ?_ hreach ?_
  · intro t ht
    rcases crawlStep_shape env cfg t with ⟨_, hstep⟩ | ⟨url, depth, rest, hq, hcase⟩
    · rw [hstep]; exact ht
    · have hqfst : t.queue.map Prod.fst = url :: rest.map Prod.fst := by rw [hq]; rfl
      have hnd : (rest.map Prod.fst).Nodup := by
        have h := ht.1; rw [hqfst, List.nodup_cons] at h; exact h.2
      have hhead : url ∉ rest.map Prod.fst := by
        have h := ht.1; rw [hqfst, List.nodup_cons] at h; exact h.1
      have hdisj : ∀ u ∈ rest.map Prod.fst, u ∉ t.visited := by
        intro u hu
        exact ht.2 u (by rw [hqfst]; exact List.mem_cons_of_mem _ hu)
      have hdisj' : ∀ u ∈ rest.map Prod.fst, u ∉ url :: t.visited := by
        intro u hu
        simp only [List.mem_cons, not_or]
        exact ⟨fun h => hhead (h ▸ hu), hdisj u hu⟩
      rcases hcase with ⟨hstep, _⟩ | ⟨hstep, _⟩ | ⟨_, _, ⟨_, hstep⟩ | ⟨html, hfetch, hstep⟩⟩
      · rw [hstep]; exact ⟨hnd, hdisj⟩
      · rw [hstep]; exact ⟨hnd, hdisj⟩
      · rw [hstep]; exact ⟨hnd, hdisj'⟩
      · rw [hstep]
        simp only [processPage]
        split
        · apply pushLinks_dedup
          · rw [savePhase_queue]; exact hnd
          · intro u hu
            rw [savePhase_queue] at hu
            rw [savePhase_visited]
            exact hdisj' u hu
        · refine ⟨?_, ?_⟩
          · rw [savePhase_queue]; exact hnd
          · intro u hu
            rw [savePhase_queue] at hu
            rw [savePhase_visited]
            exact hdisj' u hu
  · constructor
    · exact seedQueue_nodup env visited0 seeds hseeds
    · intro u hu
      exact (seedQueue_mem env visited0 seeds u hu).2

/-- Witness for `frontier_dedup_invariant` at a concrete run start with two
distinct seeds. -/
theorem frontier_dedup_invariant_witness :
    ((initState flatEnv [] 0 ["a", "aa"]).queue.map Prod.fst).Nodup :=
  (frontier_dedup_invariant flatEnv flatCfg [] 0 ["a", "aa"] _ (by decide)
    (Reachable.refl _)).1

/-- Claim C3: within a run (`visited0` duplicate-free), the visited set is
exactly the initial visited set extended by the URLs on which `_fetch_url`
was called, in order — a URL enters it exactly when it is dequeued and about
to be fetched, whatever the fetch's outcome — and no URL is fetched twice; a
dequeued URL that is already visited is discarded, changing nothing but the
queue.  Queue entries carry already-normalized URLs, so this is at most one
fetch attempt per normalization class. -/
theorem visited_marks_fetch_exactly (env : CrawlEnv) (cfg : CrawlConfig)
    (visited0 : List String) (lastDocId0 : Nat) (seeds : List String) (s : CrawlState)
    (hnd : visited0.Nodup)
    (hreach : Reachable env cfg (initState env visited0 lastDocId0 seeds) s) :
    (s.visited = fetchUrls s.trace ++ visited0 ∧ (fetchUrls s.trace).Nodup) ∧
    (∀ url depth rest, s.queue = (url, depth) :: rest → url ∈ s.visited →
      crawlStep env cfg s = { s with queue := rest }) := by
  have hinv : s.visited = fetchUrls s.trace ++ visited0 ∧ s.visited.Nodup := by
    refine Reachable.invariant
      (P := fun t => t.visited = fetchUrls t.trace ++ visited0 ∧ t.visited.Nodup)
      ?_ hreach ⟨by simp [initState], hnd⟩
    intro t ht
    rcases crawlStep_shape env cfg t with ⟨_, hstep⟩ | ⟨url, depth, rest, hq, hcase⟩
    · rw [hstep]; exact ht
    · rcases hcase with ⟨hstep, _⟩ | ⟨hstep, _⟩ |
        ⟨hvis, _, ⟨_, hstep⟩ | ⟨html, hfetch, hstep⟩⟩
      · rw [hstep]; exact ht
      · rw [hstep]; exact ht
      · rw [hstep]
        refine ⟨?_, ?_⟩
        · show url :: t.visited = fetchUrls (Event.fetch url depth false :: t.trace) ++ visited0
          rw [fetchUrls_cons_fetch, List.cons_append, ht.1]
        · exact List.nodup_cons.mpr ⟨hvis, ht.2⟩
      · rw [hstep]
        rw [processPage_visited, processPage_fetchUrls]
        refine ⟨?_, ?_⟩
        · show url :: t.visited = fetchUrls (Event.fetch url depth true :: t.trace) ++ visited0
          rw [fetchUrls_cons_fetch, List.cons_append, ht.1]
        · exact List.nodup_cons.mpr ⟨hvis, ht.2⟩
  refine ⟨⟨hinv.1, ?_⟩, ?_⟩
  · have h := hinv.2
    rw [hinv.1] at h
    exact (List.nodup_append.mp h).1
  · intro url depth rest hq hvis
    simp only [crawlStep, hq]
    rw [if_pos hvis]

/-- Witness for `visited_marks_fetch_exactly` one loop iteration into a
concrete run: the single seed has been fetched once and is the one element of
the visited set. -/
theorem visited_marks_fetch_exactly_witness :
    (crawlStep flatEnv flatCfg (initState flatEnv [] 0 ["a"])).visited =
      fetchUrls (crawlStep flatEnv flatCfg (initState flatEnv [] 0 ["a"])).trace ++ [] ∧
    (fetchUrls (crawlStep flatEnv flatCfg (initState flatEnv [] 0 ["a"])).trace).Nodup :=
  (visited_marks_fetch_exactly flatEnv flatCfg [] 0 ["a"] _ List.nodup_nil
    (Reachable.head (by decide) (by decide) (Reachable.refl _))).1

/-- Claim C4: in every reachable state, every recorded fetch happened at a
depth within the configured maximum, every queued entry is within the
maximum, every push performed while mining a page at depth `d` enqueued depth
`d + 1` with `d` strictly below the maximum, and a dequeued entry whose depth
exceeds the maximum is discarded with no effect beyond the pop. -/
theorem depth_bound_invariant (env : CrawlEnv) (cfg : CrawlConfig)
    (visited0 : List String) (lastDocId0 : Nat) (seeds : List String) (s : CrawlState)
    (hreach : Reachable env cfg (initState env visited0 lastDocId0 seeds) s) :
    ((∀ e ∈ fetchEvents s.trace, e.2 ≤ cfg.maxDepth) ∧
      (∀ e ∈ s.queue, e.2 ≤ cfg.maxDepth) ∧
      (∀ p ∈ pushEvents s.trace, p.2.1 = p.2.2 + 1 ∧ p.2.2 < cfg.maxDepth)) ∧
    (∀ url depth rest, s.queue = (url, depth) :: rest → cfg.maxDepth < depth →
      crawlStep env cfg s = { s with queue := rest }) := by
  refine ⟨?_, ?_⟩
  · refine Reachable.invariant (P := fun t =>
      (∀ e ∈ fetchEvents t.trace, e.2 ≤ cfg.maxDepth) ∧
      (∀ e ∈ t.queue, e.2 ≤ cfg.maxDepth) ∧
      (∀ p ∈ pushEvents t.trace, p.2.1 = p.2.2 + 1 ∧ p.2.2 < cfg.maxDepth))
      ?_ hreach ?_
    · intro t ht
      obtain ⟨hfe, hqd, hpe⟩ := ht
      rcases crawlStep_shape env cfg t with ⟨_, hstep⟩ | ⟨url, depth, rest, hq, hcase⟩
      · rw [hstep]; exact ⟨hfe, hqd, hpe⟩
      · have hrest : ∀ e ∈ rest, e.2 ≤ cfg.maxDepth := by
          intro e he
          exact hqd e (by rw [hq]; exact List.mem_cons_of_mem _ he)
        rcases hcase with ⟨hstep, _⟩ | ⟨hstep, _⟩ |
          ⟨hvis, hdep, ⟨_, hstep⟩ | ⟨html, hfetch, hstep⟩⟩
        · rw [hstep]; exact ⟨hfe, hrest, hpe⟩
        · rw [hstep]; exact ⟨hfe, hrest, hpe⟩
        · rw [hstep]
          refine ⟨?_, hrest, hpe⟩
          intro e he
          rw [show (Event.fetch url depth false :: t.trace : List Event) =
            Event.fetch url depth false :: t.trace from rfl, fetchEvents_cons_fetch] at he
          rcases List.mem_cons.mp he with h | h
          · rw [h]; exact hdep
          · exact hfe e h
        · rw [hstep]
          refine ⟨?_, ?_, ?_⟩
          · intro e he
            rw [processPage_fetchEvents] at he
            simp only [fetchEvents_cons_fetch, List.mem_cons] at he
            rcases he with h | h
            · rw [h]; exact hdep
            · exact hfe e h
          · intro e he
            rcases processPage_queue_mem env cfg url depth html _ e he with h | h
            · exact hrest e h
            · rw [h.1]; exact h.2
          · intro p hp
            rcases processPage_pushEvents_mem env cfg url depth html _ p hp with h | h
            · simp only [pushEvents_cons_fetch] at h
              exact hpe p h
            · exact ⟨h.1.trans (by rw [h.2.1]), h.2.1 ▸ h.2.2⟩
    · refine ⟨by simp [initState], ?_, by simp [initState]⟩
      intro e he
      rw [show (initState env visited0 lastDocId0 seeds).queue =
        seedQueue env visited0 seeds from rfl] at he
      rw [seedQueue_depth env visited0 seeds e he]
      exact Nat.zero_le _
  · intro url depth rest hq hdepth
    simp only [crawlStep, hq]
    by_cases hvis : url ∈ s.visited
    · rw [if_pos hvis]
    · rw [if_neg hvis, if_pos hdepth]

/-- Witness for `depth_bound_invariant` one loop iteration into a concrete
run with `max_depth = 0`: the seed's recorded fetch event happened within the
depth bound. -/
theorem depth_bound_invariant_witness :
    (("a", 0) : String × Nat).2 ≤ flatCfg.maxDepth :=
  (depth_bound_invariant flatEnv flatCfg [] 0 ["a"] _
    (Reachable.head (by decide) (by decide) (Reachable.refl _))).1.1
    ("a", 0) (by decide)

/-- Claim C5: for a fetched page, the saved-documents counter advances exactly
when the extracted body text passes the minimum-length filter (non-empty and
at least `min_content_length` characters) and the save succeeds; when the
filter rejects the text, the iteration performs no save attempt — it leaves
the saved counter, the ID watermark and `pages_crawled` untouched and reduces
to pure link mining, still performed exactly when `depth < max_depth`. -/
theorem min_length_filter (env : CrawlEnv) (cfg : CrawlConfig) (url : String)
    (depth : Nat) (html : String) (s : CrawlState) :
    ((processPage env cfg url depth html s).documentsSaved = s.documentsSaved + 1 ↔
      contentPasses cfg (env.extractContent html).2.1 = true ∧
        env.saveOk (s.lastDocId + 1) url = true) ∧
    (contentPasses cfg (env.extractContent html).2.1 = false →
      processPage env cfg url depth html s =
        (if depth < cfg.maxDepth then
          pushLinks env depth (env.extractLinks html url) s
        else s) ∧
      (processPage env cfg url depth html s).documentsSaved = s.documentsSaved ∧
      (processPage env cfg url depth html s).lastDocId = s.lastDocId ∧
      (processPage env cfg url depth html s).pagesCrawled = s.pagesCrawled ∧
      saveEvents (processPage env cfg url depth html s).trace = saveEvents s.trace) := by
  have hmined : ∀ s' : CrawlState,
      (if depth < cfg.maxDepth then
        pushLinks env depth (env.extractLinks html url) s' else s').documentsSaved =
      s'.documentsSaved := by
    intro s'
    split
    · rw [pushLinks_documentsSaved]
    · rfl
  rcases ht : (env.extractContent html).2.1 with _ | text
  · -- no extracted text: `if text_content` is falsy, nothing is saved
    have hpp : processPage env cfg url depth html s =
        (if depth < cfg.maxDepth then
          pushLinks env depth (env.extractLinks html url) s else s) := by
      simp only [processPage, ht, savePhase]
    refine ⟨?_, fun _ => ⟨hpp, ?_, ?_, ?_, ?_⟩⟩
    · rw [hpp]
      constructor
      · intro h
        rw [hmined s] at h
        omega
      · intro h
        exact absurd h.1 (by simp [contentPasses])
    · rw [hpp, hmined s]
    · rw [hpp]
      split
      · rw [pushLinks_lastDocId]
      · rfl
    · rw [hpp]
      split
      · rw [pushLinks_pagesCrawled]
      · rfl
    · rw [hpp]
      split
      · rw [pushLinks_saveEvents]
      · rfl
  · by_cases hg : text ≠ "" ∧ cfg.minContentLength ≤ text.length
    · -- filter passes: a save is attempted with ID `last_doc_id + 1`
      have hpass : contentPasses cfg (some text) = true :=
        (contentPasses_some_iff cfg text).mpr hg
      rcases hok : env.saveOk (s.lastDocId + 1) url with _ | _
      · have hpp : processPage env cfg url depth html s =
            (if depth < cfg.maxDepth then
              pushLinks env depth (env.extractLinks html url)
                { s with trace := Event.save (s.lastDocId + 1) url false :: s.trace }
             else { s with trace := Event.save (s.lastDocId + 1) url false :: s.trace }) := by
          simp only [processPage, ht]
          rw [savePhase_saveFail env cfg url text s hg hok]
        refine ⟨?_, fun hfalse => absurd hpass (by rw [hfalse]; exact Bool.false_ne_true)⟩
        rw [hpp]
        constructor
        · intro h
          rw [hmined _] at h
          simp at h
        · intro h
          exact absurd h.2 Bool.false_ne_true
      · have hpp : processPage env cfg url depth html s =
            (if depth < cfg.maxDepth then
              pushLinks env depth (env.extractLinks html url)
                { s with
                  lastDocId := s.lastDocId + 1
                  documentsSaved := s.documentsSaved + 1
                  pagesCrawled := s.pagesCrawled + 1
                  trace := Event.save (s.lastDocId + 1) url true :: s.trace }
             else
              { s with
                lastDocId := s.lastDocId + 1
                documentsSaved := s.documentsSaved + 1
                pagesCrawled := s.pagesCrawled + 1
                trace := Event.save (s.lastDocId + 1) url true :: s.trace }) := by
          simp only [processPage, ht]
          rw [savePhase_saveOk env cfg url text s hg hok]
        refine ⟨?_, fun hfalse => absurd hpass (by rw [hfalse]; exact Bool.false_ne_true)⟩
        rw [hpp]
        constructor
        · intro _
          exact ⟨hpass, rfl⟩
        · intro _
          rw [hmined _]
    · -- filter rejects: no save attempt, links still mined
      have hfail : contentPasses cfg (some text) = false := by
        rcases hb : contentPasses cfg (some text) with _ | _
        · rfl
        · exact absurd ((contentPasses_some_iff cfg text).mp hb) hg
      have hpp : processPage env cfg url depth html s =
          (if depth < cfg.maxDepth then
            pushLinks env depth (env.extractLinks html url) s else s) := by
        simp only [processPage, ht]
        rw [savePhase_skip env cfg url text s hg]
      refine ⟨?_, fun _ => ⟨hpp, ?_, ?_, ?_, ?_⟩⟩
      · rw [hpp]
        constructor
        · intro h
          rw [hmined s] at h
          omega
        · intro h
          exact absurd h.1 (by rw [hfail]; exact Bool.false_ne_true)
      · rw [hpp, hmined s]
      · rw [hpp]
        split
        · rw [pushLinks_lastDocId]
        · rfl
      · rw [hpp]
        split
        · rw [pushLinks_pagesCrawled]
        · rfl
      · rw [hpp]
        split
        · rw [pushLinks_saveEvents]
        · rfl

/-- Witness for `min_length_filter` at a concrete page whose extracted text
(one character) is below `flatCfg`'s minimum of 2: nothing is saved and the
iteration reduces to link mining (here a no-op, since `max_depth = 0`). -/
theorem min_length_filter_witness :
    processPage flatEnv flatCfg "a" 0 "page" (initState flatEnv [] 0 ["a"]) =
      initState flatEnv [] 0 ["a"] ∧
    (processPage flatEnv flatCfg "a" 0 "page"
      (initState flatEnv [] 0 ["a"])).documentsSaved =
      (initState flatEnv [] 0 ["a"]).documentsSaved :=
  have h := min_length_filter flatEnv flatCfg "a" 0 "page" (initState flatEnv [] 0 ["a"])
  have h2 := h.2 (by decide)
  ⟨h2.1, h2.2.1⟩

/-- Claim C7: when `_save_document` fails (modelled by `saveOk … = false`) on
a page whose text passed the filter, the iteration records a failed save
attempt with ID `last_doc_id + 1` but leaves `documents_saved`, the
`last_doc_id` watermark and `pages_crawled` unchanged — so the next save
attempt is offered the same ID. -/
theorem save_failure_keeps_watermark (env : CrawlEnv) (cfg : CrawlConfig)
    (url : String) (depth : Nat) (html text : String) (s : CrawlState)
    (ht : (env.extractContent html).2.1 = some text)
    (hg : text ≠ "" ∧ cfg.minContentLength ≤ text.length)
    (hok : env.saveOk (s.lastDocId + 1) url = false) :
    (processPage env cfg url depth html s).documentsSaved = s.documentsSaved ∧
    (processPage env cfg url depth html s).lastDocId = s.lastDocId ∧
    (processPage env cfg url depth html s).pagesCrawled = s.pagesCrawled ∧
    saveEvents (processPage env cfg url depth html s).trace =
      (s.lastDocId + 1, url, false) :: saveEvents s.trace := by
  have hpp : processPage env cfg url depth html s =
      (if depth < cfg.maxDepth then
        pushLinks env depth (env.extractLinks html url)
          { s with trace := Event.save (s.lastDocId + 1) url false :: s.trace }
       else { s with trace := Event.save (s.lastDocId + 1) url false :: s.trace }) := by
    simp only [processPage, ht]
    rw [savePhase_saveFail env cfg url text s hg hok]
  rw [hpp]
  split
  · rw [pushLinks_documentsSaved, pushLinks_lastDocId, pushLinks_pagesCrawled,
      pushLinks_saveEvents]
    exact ⟨rfl, rfl, rfl, by simp⟩
  · exact ⟨rfl, rfl, rfl, by simp⟩

/-- Witness for `save_failure_keeps_watermark` at a concrete page whose
two-character text passes `flatCfg`'s minimum but whose save fails. -/
theorem save_failure_keeps_watermark_witness :
    (processPage failSaveEnv flatCfg "a" 0 "page"
      (initState failSaveEnv [] 0 ["a"])).documentsSaved =
      (initState failSaveEnv [] 0 ["a"]).documentsSaved ∧
    (processPage failSaveEnv flatCfg "a" 0 "page"
      (initState failSaveEnv [] 0 ["a"])).lastDocId =
      (initState failSaveEnv [] 0 ["a"]).lastDocId ∧
    saveEvents (processPage failSaveEnv flatCfg "a" 0 "page"
      (initState failSaveEnv [] 0 ["a"])).trace =
      ((initState failSaveEnv [] 0 ["a"]).lastDocId + 1, "a", false) ::
        saveEvents (initState failSaveEnv [] 0 ["a"]).trace :=
  have h := save_failure_keeps_watermark failSaveEnv flatCfg "a" 0 "page" "xx"
    (initState failSaveEnv [] 0 ["a"]) rfl (by decide) rfl
  ⟨h.1, h.2.1, h.2.2.2⟩

/-- Claim C8: the `last_doc_id` loaded at startup is the larger of the
state-file value (0 when the file is absent or unreadable) and the maximum
numeric suffix among the `doc_*.txt` files on disk; and in every state
reachable from a crawl started at that watermark, every successfully saved
document received an ID strictly greater than the loaded value, and no ID was
ever used twice. -/
theorem doc_id_never_reused (env : CrawlEnv) (cfg : CrawlConfig)
    (stateVal : Option Nat) (files : List String)
    (visited0 : List String) (seeds : List String) (s : CrawlState)
    (hreach : Reachable env cfg
      (initState env visited0 (loadLastDocId stateVal files) seeds) s) :
    loadLastDocId stateVal files = max (stateVal.getD 0) (maxDiskDocId files) ∧
    (∀ i ∈ savedIds s.trace, loadLastDocId stateVal files < i) ∧
    (savedIds s.trace).Nodup := by
  have h := savedIds_invariant env cfg visited0 (loadLastDocId stateVal files) seeds s hreach
  refine ⟨loadLastDocId_eq_max stateVal files, ?_, ?_⟩
  · intro i hi
    exact (h.2.1 i hi).1
  · exact h.2.2.imp (fun hab => (Nat.ne_of_lt hab).symm)

/-- Witness for `doc_id_never_reused` one iteration into a concrete resumed
run: the state file says 5, the disk holds `doc_00000007.txt`, so the loaded
watermark is 7 and the one document saved in the run got ID 8. -/
theorem doc_id_never_reused_witness :
    loadLastDocId (some 5) ["doc_00000007.txt"] =
      max ((some 5).getD 0) (maxDiskDocId ["doc_00000007.txt"]) ∧
    loadLastDocId (some 5) ["doc_00000007.txt"] < 8 ∧
    (savedIds (crawlStep okSaveEnv flatCfg (initState okSaveEnv []
        (loadLastDocId (some 5) ["doc_00000007.txt"]) ["a"])).trace).Nodup :=
  have h := doc_id_never_reused okSaveEnv flatCfg (some 5) ["doc_00000007.txt"] [] ["a"] _
    (Reachable.head (by decide) (by decide) (Reachable.refl _))
  ⟨h.1, h.2.1 8 (by decide), h.2.2⟩

theorem Reachable.invariantGuarded {env : CrawlEnv} {cfg : CrawlConfig}
    {P : CrawlState → Prop}
    (hstep : ∀ u, u.queue ≠ [] → u.pagesCrawled < cfg.maxPages →
      P u → P (crawlStep env cfg u)) :
    ∀ {s t : CrawlState}, Reachable env cfg s t → P s → P t := by
  intro s t h hs
  induction h with
  | refl s => exact hs
  | head hq hp _ ih => exact ih (hstep _ hq hp hs)

theorem processPage_saved_pages (env : CrawlEnv) (cfg : CrawlConfig) (url : String)
    (depth : Nat) (html : String) (s : CrawlState) :
    ((processPage env cfg url depth html s).pagesCrawled = s.pagesCrawled ∧
      (processPage env cfg url depth html s).documentsSaved = s.documentsSaved) ∨
    ((processPage env cfg url depth html s).pagesCrawled = s.pagesCrawled + 1 ∧
      (processPage env cfg url depth html s).documentsSaved = s.documentsSaved + 1) := by
  have hsp := savePhase_counters env cfg url (env.extractContent html).2.1 s
  simp only [processPage]
  split
  · rw [pushLinks_pagesCrawled, pushLinks_documentsSaved]
    rcases hsp with ⟨h1, h2, _⟩ | ⟨h1, h2, _⟩
    · exact Or.inl ⟨h2, h1⟩
    · exact Or.inr ⟨h2, h1⟩
  · rcases hsp with ⟨h1, h2, _⟩ | ⟨h1, h2, _⟩
    · exact Or.inl ⟨h2, h1⟩
    · exact Or.inr ⟨h2, h1⟩

theorem crawlStep_saved_pages (env : CrawlEnv) (cfg : CrawlConfig) (t : CrawlState) :
    ((crawlStep env cfg t).pagesCrawled = t.pagesCrawled ∧
      (crawlStep env cfg t).documentsSaved = t.documentsSaved) ∨
    ((crawlStep env cfg t).pagesCrawled = t.pagesCrawled + 1 ∧
      (crawlStep env cfg t).documentsSaved = t.documentsSaved + 1) := by
  rcases crawlStep_shape env cfg t with ⟨_, hstep⟩ | ⟨url, depth, rest, hq, hcase⟩
  · rw [hstep]; exact Or.inl ⟨rfl, rfl⟩
  · rcases hcase with ⟨hstep, _⟩ | ⟨hstep, _⟩ |
      ⟨_, _, ⟨_, hstep⟩ | ⟨html, hfetch, hstep⟩⟩
    · rw [hstep]; exact Or.inl ⟨rfl, rfl⟩
    · rw [hstep]; exact Or.inl ⟨rfl, rfl⟩
    · rw [hstep]; exact Or.inl ⟨rfl, rfl⟩
    · rw [hstep]
      rcases processPage_saved_pages env cfg url depth html
        { t with
          queue := rest
          visited := url :: t.visited
          urlsVisited := t.urlsVisited + 1
          domainPageCounts := bumpCount t.domainPageCounts (env.domainOf url)
          trace := Event.fetch url depth true :: t.trace } with ⟨h1, h2⟩ | ⟨h1, h2⟩
      · exact Or.inl ⟨h1, h2⟩
      · exact Or.inr ⟨h1, h2⟩

theorem getCount_bumpCount_ne :
    ∀ (m : List (String × Nat)) (d d' : String), d' ≠ d →
      getCount (bumpCount m d) d' = getCount m d' := by
  intro m
  induction m with
  | nil =>
    intro d d' hne
    simp only [bumpCount, getCount]
    rw [if_neg (Ne.symm hne)]
  | cons kv rest ih =>
    intro d d' hne
    obtain ⟨k, v⟩ := kv
    simp only [bumpCount]
    split
    · rename_i hk
      simp only [getCount]
      rw [if_neg (by rw [hk]; exact Ne.symm hne)]
      rw [if_neg (by rw [hk]; exact Ne.symm hne)]
    · simp only [getCount]
      split
      · rfl
      · exact ih d d' hne

theorem flat_crawlStep (s : CrawlState) (u : String) (rest : List (String × Nat))
    (hq : s.queue = (u, 0) :: rest) (hvis : u ∉ s.visited)
    (hcount : getCount s.domainPageCounts u = 0) :
    crawlStep flatEnv flatCfg s =
      { s with
        queue := rest
        visited := u :: s.visited
        urlsVisited := s.urlsVisited + 1
        domainPageCounts := bumpCount s.domainPageCounts u
        trace := Event.fetch u 0 true :: s.trace } := by
  simp only [crawlStep, hq]
  rw [if_neg hvis]
  rw [if_neg (by show ¬ flatCfg.maxDepth < 0; simp [flatCfg])]
  rw [if_neg (by show ¬ flatCfg.maxPagesPerDomain ≤ _; simp [flatCfg, flatEnv, hcount])]
  rw [if_neg (by simp [flatEnv])]
  show processPage flatEnv flatCfg u 0 "" _ = _
  simp only [processPage]
  rw [show (flatEnv.extractContent "").2.1 = some "x" from rfl]
  rw [savePhase_skip flatEnv flatCfg u "x" _ (by decide)]
  rw [if_neg (by show ¬ (0 < flatCfg.maxDepth); decide)]
  rfl

theorem flat_run :
    ∀ (q : List (String × Nat)) (s : CrawlState),
      s.queue = q → (∀ e ∈ q, e.2 = 0) → (q.map Prod.fst).Nodup →
      (∀ u ∈ q.map Prod.fst, u ∉ s.visited ∧ getCount s.domainPageCounts u = 0) →
      s.pagesCrawled = 0 → s.documentsSaved = 0 →
      ∃ s', crawlLoop flatEnv flatCfg (q.length + 1) s = some s' ∧
        s'.urlsVisited = s.urlsVisited + q.length ∧
        s'.documentsSaved = 0 ∧ s'.pagesCrawled = 0 := by
  intro q
  induction q with
  | nil =>
    intro s hq _ _ _ hp hd
    refine ⟨s, ?_, by simp, hd, hp⟩
    rw [crawlLoop, if_pos (Or.inl hq)]
  | cons e q' ih =>
    intro s hq hd0 hnd hfresh hp hdocs
    obtain ⟨u, d⟩ := e
    have hd : d = 0 := hd0 (u, d) (by rw [List.mem_cons]; exact Or.inl rfl)
    subst hd
    have hvis : u ∉ s.visited :=
      (hfresh u (by rw [hq] at hq ⊢; exact List.mem_cons_self _ _)).1
    have hcnt : getCount s.domainPageCounts u = 0 :=
      (hfresh u (List.mem_cons_self _ _)).2
    have hstep := flat_crawlStep s u q' hq hvis hcnt
    have hguard : ¬ (s.queue = [] ∨ ¬ s.pagesCrawled < flatCfg.maxPages) := by
      push_neg
      refine ⟨by rw [hq]; exact List.cons_ne_nil _ _, ?_⟩
      rw [hp]
      show 0 < flatCfg.maxPages
      simp [flatCfg]
    have hnd' : (q'.map Prod.fst).Nodup := (List.nodup_cons.mp hnd).2
    have hhead : u ∉ q'.map Prod.fst := (List.nodup_cons.mp hnd).1
    obtain ⟨s', hs', hvisc, hdocs', hpages'⟩ := ih
      { s with
        queue := q'
        visited := u :: s.visited
        urlsVisited := s.urlsVisited + 1
        domainPageCounts := bumpCount s.domainPageCounts u
        trace := Event.fetch u 0 true :: s.trace }
      rfl
      (fun e he => hd0 e (List.mem_cons_of_mem _ he))
      hnd'
      (by
        intro u' hu'
        have hne : u' ≠ u := fun h => hhead (h ▸ hu')
        have hf := hfresh u' (List.mem_cons_of_mem _ hu')
        refine ⟨?_, ?_⟩
        · show u' ∉ u :: s.visited
          rw [List.mem_cons, not_or]
          exact ⟨hne, hf.1⟩
        · show getCount (bumpCount s.domainPageCounts u) u' = 0
          rw [getCount_bumpCount_ne s.domainPageCounts u u' hne]
          exact hf.2)
      hp hdocs
    refine ⟨s', ?_, ?_, hdocs', hpages'⟩
    · show crawlLoop flatEnv flatCfg ((q'.length + 1) + 1) s = some s'
      rw [crawlLoop, if_neg hguard, hstep]
      exact hs'
    · rw [hvisc]
      simp only [List.length_cons]
      omega

theorem seedQueue_flat :
    ∀ seeds : List String, (∀ u ∈ seeds, u ≠ "") →
      seedQueue flatEnv [] seeds = seeds.map (fun u => (u, 0)) := by
  intro seeds
  induction seeds with
  | nil => intro _; rfl
  | cons s0 rest ih =>
    intro h
    rw [seedQueue]
    rw [if_pos ⟨h s0 (List.mem_cons_self _ _), by simp⟩]
    rw [ih (fun u hu => h u (List.mem_cons_of_mem _ hu))]
    rfl

theorem seedList_length (n : Nat) : (seedList n).length = n := by
  simp [seedList]

theorem seedList_ne_empty (n : Nat) : ∀ u ∈ seedList n, u ≠ "" := by
  intro u hu
  simp only [seedList, List.mem_map, List.mem_range] at hu
  obtain ⟨i, _, rfl⟩ := hu
  intro heq
  have hlen := congrArg (fun s : String => s.data.length) heq
  simp at hlen

theorem seedList_nodup (n : Nat) : (seedList n).Nodup := by
  refine (List.nodup_range n).map ?_
  intro a b hab
  have hlen := congrArg (fun s : String => s.data.length) hab
  simp only [List.length_replicate] at hlen
  omega

/-- Claim C10: in the state a crawl run returns, `pages_crawled` equals
`documents_saved` (both start at 0 and are incremented only together, on a
successful save), so the `max_pages` budget bounds the number of documents
saved; it does not bound fetches — for every `n` there is a run with
`max_pages = 1` that visits (and fetches) `n` URLs, all below the minimum
content length, saving nothing. -/
theorem pages_crawled_eq_documents_saved :
    (∀ (env : CrawlEnv) (cfg : CrawlConfig) (visited0 : List String) (lastDocId0 : Nat)
        (seeds : List String) (fuel : Nat) (s' : CrawlState),
      crawlRun env cfg visited0 lastDocId0 seeds fuel = some s' →
      s'.pagesCrawled = s'.documentsSaved ∧ s'.documentsSaved ≤ cfg.maxPages) ∧
    (∀ n : Nat, ∃ s' : CrawlState,
      crawlRun flatEnv flatCfg [] 0 (seedList n) (n + 1) = some s' ∧
      s'.urlsVisited = n ∧ s'.documentsSaved = 0 ∧ flatCfg.maxPages = 1) := by
  constructor
  · intro env cfg visited0 lastDocId0 seeds fuel s' hrun
    have hreach := crawlLoop_reachable env cfg fuel _ s' hrun
    have hinv : s'.pagesCrawled = s'.documentsSaved ∧ s'.pagesCrawled ≤ cfg.maxPages := by
      refine Reachable.invariantGuarded (P := fun t =>
        t.pagesCrawled = t.documentsSaved ∧ t.pagesCrawled ≤ cfg.maxPages)
        ?_ hreach ⟨rfl, Nat.zero_le _⟩
      intro u _ hp hu
      rcases crawlStep_saved_pages env cfg u with ⟨p1, p2⟩ | ⟨p1, p2⟩
      · rw [p1, p2]
        exact ⟨hu.1, hu.2⟩
      · rw [p1, p2]
        exact ⟨by rw [hu.1], by omega⟩
    exact ⟨hinv.1, hinv.1 ▸ hinv.2⟩
  · intro n
    have hseed : (initState flatEnv [] 0 (seedList n)).queue =
        (seedList n).map (fun u => (u, 0)) :=
      seedQueue_flat (seedList n) (seedList_ne_empty n)
    have hfst : ((seedList n).map (fun u => (u, 0))).map Prod.fst = seedList n := by
      rw [List.map_map]
      exact List.map_id _
    obtain ⟨s', hs', hv, hd, _⟩ := flat_run ((seedList n).map (fun u => (u, 0)))
      (initState flatEnv [] 0 (seedList n)) hseed
      (by
        intro e he
        simp only [List.mem_map] at he
        obtain ⟨u, _, rfl⟩ := he
        rfl)
      (by rw [hfst]; exact seedList_nodup n)
      (by
        intro u hu
        exact ⟨by simp [initState], rfl⟩)
      rfl rfl
    have hlen : ((seedList n).map (fun u => (u, 0))).length = n := by
      simp [seedList_length]
    rw [hlen] at hs'
    refine ⟨s', hs', ?_, hd, rfl⟩
    rw [hv, hlen]
    show 0 + n = n
    omega

/-- Witness for `pages_crawled_eq_documents_saved` at a concrete run: one
seed URL, `max_pages = 1`, visited but not saved, and the returned counters
agree. -/
theorem pages_crawled_eq_documents_saved_witness :
    (crawlRun flatEnv flatCfg [] 0 (seedList 1) (1 + 1)).elim 0 CrawlState.pagesCrawled =
      (crawlRun flatEnv flatCfg [] 0 (seedList 1) (1 + 1)).elim 0 CrawlState.documentsSaved ∧
    (crawlRun flatEnv flatCfg [] 0 (seedList 1) (1 + 1)).elim 0 CrawlState.documentsSaved ≤
      flatCfg.maxPages := by
  obtain ⟨s', h1, h2, h3, _⟩ := pages_crawled_eq_documents_saved.2 1
  have h4 := pages_crawled_eq_documents_saved.1 flatEnv flatCfg [] 0 (seedList 1) (1 + 1) s' h1
  rw [h1]
  exact ⟨h4.1, h4.2⟩

theorem urlCost_pos (env : CrawlEnv) (k : Nat) (u : String) : 0 < urlCost env k u := by
  cases k with
  | zero => simp [urlCost]
  | succ k =>
    simp only [urlCost]
    split
    · omega
    · omega

theorem phiQ_cons (env : CrawlEnv) (cfg : CrawlConfig) (e : String × Nat)
    (q : List (String × Nat)) :
    phiQ env cfg (e :: q) = entryCost env cfg e + phiQ env cfg q := by
  simp [phiQ]

theorem phiQ_append_single (env : CrawlEnv) (cfg : CrawlConfig)
    (q : List (String × Nat)) (e : String × Nat) :
    phiQ env cfg (q ++ [e]) = phiQ env cfg q + entryCost env cfg e := by
  simp [phiQ]

theorem pushLinks_phi (env : CrawlEnv) (cfg : CrawlConfig) (depth : Nat) :
    ∀ (links : List String) (s : CrawlState),
      phiQ env cfg (pushLinks env depth links s).queue ≤
        phiQ env cfg s.queue +
          (links.map (fun l => urlCost env (cfg.maxDepth - depth) (env.normalizeUrl l))).sum := by
  intro links
  induction links with
  | nil =>
    intro s
    simp [pushLinks]
  | cons l ls ih =>
    intro s
    simp only [pushLinks, List.map_cons, List.sum_cons]
    split
    · have h := ih { s with
        queue := s.queue ++ [(env.normalizeUrl l, depth + 1)],
        trace := Event.push (env.normalizeUrl l) (depth + 1) depth :: s.trace }
      have hq : phiQ env cfg (s.queue ++ [(env.normalizeUrl l, depth + 1)]) =
          phiQ env cfg s.queue + urlCost env (cfg.maxDepth - depth) (env.normalizeUrl l) := by
        rw [phiQ_append_single]
        have : entryCost env cfg (env.normalizeUrl l, depth + 1) =
            urlCost env (cfg.maxDepth - depth) (env.normalizeUrl l) := by
          show urlCost env (cfg.maxDepth + 1 - (depth + 1)) (env.normalizeUrl l) = _
          rw [Nat.add_sub_add_right]
        rw [this]
      rw [hq] at h
      omega
    · have h := ih s
      omega

theorem processPage_phi (env : CrawlEnv) (cfg : CrawlConfig) (url : String)
    (depth : Nat) (html : String) (s : CrawlState)
    (hdep : depth ≤ cfg.maxDepth) (hfetch : env.fetchHtml url = some html) :
    phiQ env cfg (processPage env cfg url depth html s).queue + 1 ≤
      phiQ env cfg s.queue + urlCost env (cfg.maxDepth + 1 - depth) url := by
  have hk : cfg.maxDepth + 1 - depth = (cfg.maxDepth - depth) + 1 := by omega
  rw [hk]
  simp only [urlCost, hfetch]
  simp only [processPage]
  split
  · have h := pushLinks_phi env cfg depth (env.extractLinks html url)
      (savePhase env cfg url (env.extractContent html).2.1 s)
    rw [show (savePhase env cfg url (env.extractContent html).2.1 s).queue = s.queue
      from savePhase_queue env cfg url _ s] at h
    omega
  · rw [show (savePhase env cfg url (env.extractContent html).2.1 s).queue = s.queue
      from savePhase_queue env cfg url _ s]
    omega

theorem crawlStep_phi_lt (env : CrawlEnv) (cfg : CrawlConfig) (s : CrawlState)
    (h : s.queue ≠ []) :
    phiQ env cfg (crawlStep env cfg s).queue < phiQ env cfg s.queue := by
  rcases crawlStep_shape env cfg s with ⟨hq, _⟩ | ⟨url, depth, rest, hq, hcase⟩
  · exact absurd hq h
  · have hphi : phiQ env cfg s.queue = entryCost env cfg (url, depth) + phiQ env cfg rest := by
      rw [hq, phiQ_cons]
    have hpos : 0 < entryCost env cfg (url, depth) := urlCost_pos env _ url
    rcases hcase with ⟨hstep, _⟩ | ⟨hstep, _⟩ |
      ⟨_, hdep, ⟨_, hstep⟩ | ⟨html, hfetch, hstep⟩⟩
    · rw [hstep]
      show phiQ env cfg rest < _
      omega
    · rw [hstep]
      show phiQ env cfg rest < _
      omega
    · rw [hstep]
      show phiQ env cfg rest < _
      omega
    · rw [hstep]
      have hp := processPage_phi env cfg url depth html
        { s with
          queue := rest
          visited := url :: s.visited
          urlsVisited := s.urlsVisited + 1
          domainPageCounts := bumpCount s.domainPageCounts (env.domainOf url)
          trace := Event.fetch url depth true :: s.trace }
        hdep hfetch
      have hq2 : phiQ env cfg
          ({ s with
            queue := rest
            visited := url :: s.visited
            urlsVisited := s.urlsVisited + 1
            domainPageCounts := bumpCount s.domainPageCounts (env.domainOf url)
            trace := Event.fetch url depth true :: s.trace } : CrawlState).queue =
          phiQ env cfg rest := rfl
      rw [hq2] at hp
      have hent : entryCost env cfg (url, depth) =
          urlCost env (cfg.maxDepth + 1 - depth) url := rfl
      omega

theorem crawlLoop_terminates (env : CrawlEnv) (cfg : CrawlConfig) :
    ∀ (n : Nat) (s : CrawlState), phiQ env cfg s.queue < n →
      ∃ s', crawlLoop env cfg n s = some s' := by
  intro n
  induction n with
  | zero => intro s h; exact absurd h (Nat.not_lt_zero _)
  | succ n ih =>
    intro s h
    rw [crawlLoop]
    by_cases hguard : s.queue = [] ∨ ¬ s.pagesCrawled < cfg.maxPages
    · rw [if_pos hguard]
      exact ⟨s, rfl⟩
    · rw [if_neg hguard]
      push_neg at hguard
      have hlt := crawlStep_phi_lt env cfg s hguard.1
      exact ih (crawlStep env cfg s) (by omega)

/-- Claim C9: for every environment (any fetch, extraction, robots and save
behaviour the collaborators can exhibit) and every starting state, the crawl
loop needs only finitely many iterations — the depth ceiling caps the mining
chain, so the measure `phiQ` strictly decreases — and the run returns the
statistics record of its final state.  Fallible operations are modelled as
environment results handled inside the step, so no per-URL failure escapes
the loop. -/
theorem crawl_terminates (env : CrawlEnv) (cfg : CrawlConfig)
    (visited0 : List String) (lastDocId0 : Nat) (seeds : List String) :
    ∃ (fuel : Nat) (s' : CrawlState),
      crawlRun env cfg visited0 lastDocId0 seeds fuel = some s' ∧
      crawl env cfg visited0 lastDocId0 seeds fuel = some (statsOf s') := by
  obtain ⟨s', hs'⟩ := crawlLoop_terminates env cfg
    (phiQ env cfg (initState env visited0 lastDocId0 seeds).queue + 1)
    (initState env visited0 lastDocId0 seeds) (Nat.lt_succ_self _)
  refine ⟨_, s', hs', ?_⟩
  show (crawlRun env cfg visited0 lastDocId0 seeds _).map statsOf = _
  rw [show crawlRun env cfg visited0 lastDocId0 seeds
    (phiQ env cfg (initState env visited0 lastDocId0 seeds).queue + 1) = some s' from hs']
  rfl

end WebCrawler
